import Mathlib

/-!
# Rotated bloom-bit generator (`core/bloombits/generator.go`)

A shallow embedding of `NewGenerator`, `Generator.AddBloom` and
`Generator.Bitset`, followed by the properties proved about them.

Conventions of the embedding:

* Go's `uint` is a natural number below `uintMod`; arithmetic that can wrap in
  Go is written with an explicit `% uintMod`.
* A `byte` is a natural number; conversions `byte(e)` are written `e % 256`.
* The package `types` is not among the sources. Its constant
  `BloomByteLength` is a parameter `L` of every definition, and
  `BloomBitLength` is derived from it.
* An operation returns `Option _`: `none` stands for a Go run-time panic
  (index out of range), `some r` for a normal return with results `r`.
  Methods with a pointer receiver return the receiver's state after the call
  together with the Go results.
-/

namespace bloombits

/-- Number of values of Go's `uint` (64-bit target). -/
def uintMod : Nat := 18446744073709551616

/-- Modelled from the spec: `types.BloomBitLength`, declared in the package `types`
that is not among the sources. The spec describes a bloom filter as
"a fixed-length bit array of `BloomBitLength` bits (packed into `BloomByteLength` bytes)",
so the bit length is eight times the byte length `L`. -/
def BloomBitLength (L : Nat) : Nat := 8 * L

/-- Modelled from the spec: `types.Bloom`, a fixed array of `BloomByteLength` bytes. -/
abbrev Bloom (L : Nat) : Type := Fin L → Nat

/-- The errors of the package. `errSectionOutOfBounds` is the package-level variable;
the other three are the anonymous `errors.New` values of `NewGenerator`
("section count not multiple of 8"), `AddBloom` ("bloom filter with unexpected index")
and `Bitset` ("bloom not fully generated yet"). -/
inductive GenError where
  | errSectionOutOfBounds
  | errSectionCount
  | errUnexpectedIndex
  | errNotGenerated
  deriving DecidableEq, Repr

/-- The struct `Generator`: `blooms` is the array `[types.BloomBitLength][]byte`. -/
structure Generator (L : Nat) where
  blooms : Fin (BloomBitLength L) → List Nat
  sections : Nat
  nextBit : Nat

/-- Indexing `bloom[j]` with a Go `int` index: `none` when the index is out of range. -/
def Bloom.at {L : Nat} (bloom : Bloom L) (j : Int) : Option Nat :=
  if h : 0 ≤ j ∧ j.toNat < L then some (bloom ⟨j.toNat, h.2⟩) else none

/-- The loop of `NewGenerator`:
`for i := 0; i < types.BloomBitLength; i++ { b.blooms[i] = make([]byte, sections/8) }`.
The fuel is the number of iterations still allowed; `NewGenerator` supplies
`BloomBitLength`, which is exactly the number of iterations the loop makes. -/
def NewGenerator.loop (L sections : Nat) :
    Nat → Nat → (Fin (BloomBitLength L) → List Nat) → (Fin (BloomBitLength L) → List Nat)
  | 0, _, bl => bl
  | fuel + 1, i, bl =>
    if h : i < BloomBitLength L then
      NewGenerator.loop L sections fuel (i + 1)
        (Function.update bl ⟨i, h⟩ (List.replicate (sections / 8) 0))
    else bl

/-- `NewGenerator(sections)`: the pair of Go results `(*Generator, error)`;
`none` in the first component is the `nil` pointer. -/
def NewGenerator (L : Nat) (sections : Nat) : Option (Generator L) × Option GenError :=
  if sections % 8 ≠ 0 then
    (none, some GenError.errSectionCount)
  else
    let b : Generator L := { blooms := fun _ => [], sections := sections, nextBit := 0 }
    (some { b with blooms := NewGenerator.loop L sections (BloomBitLength L) 0 b.blooms }, none)

/-- One iteration of the loop of `AddBloom` for bit position `i`:
```
bloomByteIndex := types.BloomByteLength - 1 - i/8
bloomBitMask := byte(1) << byte(i%8)
if (bloom[bloomByteIndex] & bloomBitMask) != 0 {
    b.blooms[i][byteIndex] |= bitMask
}
```
-/
def AddBloom.body {L : Nat} (bloom : Bloom L) (byteIndex bitMask : Nat)
    (i : Nat) (h : i < BloomBitLength L) (bl : Fin (BloomBitLength L) → List Nat) :
    Option (Fin (BloomBitLength L) → List Nat) :=
  let bloomByteIndex : Int := (L : Int) - 1 - ((i / 8 : Nat) : Int)
  let bloomBitMask : Nat := (1 <<< ((i % 8) % 256)) % 256
  match bloom.at bloomByteIndex with
  | none => none
  | some bb =>
    if bb &&& bloomBitMask ≠ 0 then
      let row := bl ⟨i, h⟩
      if hb : byteIndex < row.length then
        some (Function.update bl ⟨i, h⟩ (row.set byteIndex (row[byteIndex] ||| bitMask)))
      else none
    else some bl

/-- The value row `i` holds after the iteration `AddBloom.body` for bit position `i`
when that iteration does not panic: the row itself when the tested bloom bit is
clear, the row with `bitMask` or-ed into byte `byteIndex` when it is set. -/
def AddBloom.column {L : Nat} (bloom : Bloom L) (byteIndex bitMask : Nat)
    (i : Nat) (row : List Nat) : List Nat :=
  match bloom.at ((L : Int) - 1 - ((i / 8 : Nat) : Int)) with
  | none => row
  | some bb =>
    if bb &&& ((1 <<< ((i % 8) % 256)) % 256) ≠ 0 then
      row.set byteIndex (row[byteIndex]?.getD 0 ||| bitMask)
    else row

/-- The loop `for i := 0; i < types.BloomBitLength; i++ { ... }` of `AddBloom`,
with the same fuel convention as `NewGenerator.loop`. -/
def AddBloom.loop {L : Nat} (bloom : Bloom L) (byteIndex bitMask : Nat) :
    Nat → Nat → (Fin (BloomBitLength L) → List Nat) →
      Option (Fin (BloomBitLength L) → List Nat)
  | 0, _, bl => some bl
  | fuel + 1, i, bl =>
    if h : i < BloomBitLength L then
      match AddBloom.body bloom byteIndex bitMask i h bl with
      | none => none
      | some bl' => AddBloom.loop bloom byteIndex bitMask fuel (i + 1) bl'
    else some bl

/-- `b.AddBloom(index, bloom)`: the generator after the call and the returned `error`
(`none` is Go's `nil` error). -/
def AddBloom {L : Nat} (b : Generator L) (index : Nat) (bloom : Bloom L) :
    Option (Generator L × Option GenError) :=
  if b.nextBit ≥ b.sections then
    some (b, some GenError.errSectionOutOfBounds)
  else if b.nextBit ≠ index then
    some (b, some GenError.errUnexpectedIndex)
  else
    let byteIndex := b.nextBit / 8
    let bitMask := (1 <<< (((7 + uintMod - b.nextBit % 8) % uintMod) % 256)) % 256
    match AddBloom.loop bloom byteIndex bitMask (BloomBitLength L) 0 b.blooms with
    | none => none
    | some bl =>
      some ({ b with blooms := bl, nextBit := (b.nextBit + 1) % uintMod }, none)

/-- `b.Bitset(idx)`: the generator after the call, the returned byte slice
(`none` is `nil`) and the returned `error`. The array access `b.blooms[idx]`
panics when `idx` is not below `BloomBitLength`. -/
def Bitset {L : Nat} (b : Generator L) (idx : Nat) :
    Option (Generator L × Option (List Nat) × Option GenError) :=
  if b.nextBit ≠ b.sections then
    some (b, none, some GenError.errNotGenerated)
  else if idx ≥ b.sections then
    some (b, none, some GenError.errSectionOutOfBounds)
  else if h : idx < BloomBitLength L then
    some (b, some (b.blooms ⟨idx, h⟩), none)
  else none

/-- A caller feeding blooms in order: `AddBloom(start, b₀)`, `AddBloom(start+1, b₁)`, ...;
it stops at the first call that returns an error or panics, and returns the
generator and the error of the last call made (`nil` when every call succeeded). -/
def feedFrom {L : Nat} (g : Generator L) (start : Nat) :
    List (Bloom L) → Option (Generator L × Option GenError)
  | [] => some (g, none)
  | bloom :: rest =>
    match AddBloom g start bloom with
    | some (g', none) => feedFrom g' (start + 1) rest
    | other => other

/-- Bit `i` of a bloom filter as `AddBloom` reads it: bit `i % 8` of byte
`BloomByteLength - 1 - i/8` (`false` when that byte does not exist). -/
def Bloom.bit {L : Nat} (bloom : Bloom L) (i : Nat) : Bool :=
  match bloom.at ((L : Int) - 1 - ((i / 8 : Nat) : Int)) with
  | none => false
  | some bb => bb.testBit (i % 8)

/-- Column `k` of per-bit bitset `i`, most significant bit first: bit `7 - k % 8` of
byte `k / 8` (`false` when the bitset has no such byte). -/
def Generator.bit {L : Nat} (g : Generator L) (i : Fin (BloomBitLength L)) (k : Nat) : Bool :=
  ((g.blooms i)[k / 8]?.getD 0).testBit (7 - k % 8)

/-- The shape every generator built by `NewGenerator(S)` keeps: `S` is a `uint` and a
multiple of 8, the insertion counter does not exceed it, and every per-bit bitset
has `S / 8` bytes. -/
def Generator.WellFormed {L : Nat} (S : Nat) (g : Generator L) : Prop :=
  g.sections = S ∧ S % 8 = 0 ∧ S < uintMod ∧ g.nextBit ≤ S ∧
    ∀ j, (g.blooms j).length = S / 8

/-- Eight bloom filters of one byte each, of which only filter 3 has a bit set (bit 5). -/
def sampleBlooms : List (Bloom 1) :=
  [fun _ => 0, fun _ => 0, fun _ => 0, fun _ => 32, fun _ => 0, fun _ => 0, fun _ => 0,
    fun _ => 0]

/-- The generator `NewGenerator(8)` returns when a bloom filter has one byte. -/
def sampleGenerator : Generator 1 :=
  { blooms := fun _ => [0], sections := 8, nextBit := 0 }

/-- A call a client can make on a generator. -/
inductive Call (L : Nat) where
  | addBloom (index : Nat) (bloom : Bloom L)
  | bitset (idx : Nat)

/-- The generator left by one call, when the call returns. -/
def Call.run {L : Nat} (g : Generator L) : Call L → Option (Generator L)
  | Call.addBloom index bloom => (AddBloom g index bloom).map Prod.fst
  | Call.bitset idx => (Bitset g idx).map Prod.fst

/-- The generator left by a sequence of calls, each of which returns. -/
def runCalls {L : Nat} (g : Generator L) : List (Call L) → Option (Generator L)
  | [] => some g
  | c :: cs => (c.run g).bind (fun g' => runCalls g' cs)

/-- The states a client can reach from `NewGenerator(S)`, for a `uint` value `S`,
by calls of `AddBloom` and `Bitset` with arbitrary arguments. -/
def Reachable {L : Nat} (S : Nat) (g : Generator L) : Prop :=
  S < uintMod ∧ ∃ g0 cs, NewGenerator L S = (some g0, none) ∧ runCalls g0 cs = some g

/-- The indices of the `AddBloom` calls of a call sequence that returned no error, in
call order, when the sequence is run from `g`; counting stops at a call that panics. -/
def successfulIndices {L : Nat} (g : Generator L) : List (Call L) → List Nat
  | [] => []
  | Call.addBloom index bloom :: cs =>
    match AddBloom g index bloom with
    | some (g', none) => index :: successfulIndices g' cs
    | some (g', some _) => successfulIndices g' cs
    | none => []
  | Call.bitset idx :: cs =>
    match Bitset g idx with
    | some (g', _) => successfulIndices g' cs
    | none => []

/-- A call sequence on a generator of 8 sections with one-byte bloom filters: three
insertions that succeed (indices 0, 1, 2) interleaved with an insertion that skips
ahead, a premature `Bitset` and a repeated index. -/
def sampleCalls : List (Call 1) :=
  [Call.addBloom 0 (fun _ => 1), Call.addBloom 2 (fun _ => 1), Call.bitset 3,
    Call.addBloom 0 (fun _ => 1), Call.addBloom 1 (fun _ => 255),
    Call.addBloom 2 (fun _ => 7)]

/-- The call sequence that completes a generator of 8 sections with one-byte bloom
filters: the eight insertions of `sampleBlooms`, at indices 0 to 7. -/
def sampleFeed : List (Call 1) :=
  [Call.addBloom 0 (fun _ => 0), Call.addBloom 1 (fun _ => 0), Call.addBloom 2 (fun _ => 0),
    Call.addBloom 3 (fun _ => 32), Call.addBloom 4 (fun _ => 0), Call.addBloom 5 (fun _ => 0),
    Call.addBloom 6 (fun _ => 0), Call.addBloom 7 (fun _ => 0)]

/-! ## Arithmetic of shifts and masks -/

theorem shiftAmount_eq (n : Nat) :
    ((7 + uintMod - n % 8) % uintMod) % 256 = 7 - n % 8 := by
  have h : n % 8 < 8 := Nat.mod_lt _ (by decide)
  unfold uintMod
  omega

theorem two_pow_lt_256 (s : Nat) (h : s ≤ 7) : 2 ^ s < 256 :=
  calc 2 ^ s ≤ 2 ^ 7 := Nat.pow_le_pow_right (by decide) h
    _ < 256 := by decide

theorem bitMask_eq (n : Nat) :
    (1 <<< (((7 + uintMod - n % 8) % uintMod) % 256)) % 256 = 2 ^ (7 - n % 8) := by
  rw [shiftAmount_eq, Nat.one_shiftLeft]
  exact Nat.mod_eq_of_lt (two_pow_lt_256 _ (by omega))

theorem bloomBitMask_eq (i : Nat) :
    (1 <<< ((i % 8) % 256)) % 256 = 2 ^ (i % 8) := by
  have h : i % 8 < 8 := Nat.mod_lt _ (by decide)
  rw [Nat.mod_eq_of_lt (by omega : i % 8 < 256), Nat.one_shiftLeft]
  exact Nat.mod_eq_of_lt (two_pow_lt_256 _ (by omega))

theorem and_two_pow_ne_zero_iff (x s : Nat) : x &&& 2 ^ s ≠ 0 ↔ x.testBit s = true := by
  constructor
  · intro hne
    by_contra hf
    apply hne
    apply Nat.zero_of_testBit_eq_false
    intro j
    rw [Nat.testBit_and, Nat.testBit_two_pow]
    by_cases hj : s = j
    · subst hj
      simp [hf]
    · simp [hj]
  · intro ht h0
    have h1 : (x &&& 2 ^ s).testBit s = true := by
      rw [Nat.testBit_and, Nat.testBit_two_pow_self, ht]
      rfl
    rw [h0] at h1
    simp at h1

theorem testBit_or_two_pow (x s j : Nat) :
    (x ||| 2 ^ s).testBit j = (x.testBit j || decide (s = j)) := by
  rw [Nat.testBit_or, Nat.testBit_two_pow]

theorem Bloom.at_eq {L : Nat} (bloom : Bloom L) (i : Nat) (hi : i < BloomBitLength L) :
    ∃ h : L - 1 - i / 8 < L,
      bloom.at ((L : Int) - 1 - ((i / 8 : Nat) : Int)) = some (bloom ⟨L - 1 - i / 8, h⟩) := by
  unfold BloomBitLength at hi
  have hL : L - 1 - i / 8 < L := by omega
  refine ⟨hL, ?_⟩
  have hj : (L : Int) - 1 - ((i / 8 : Nat) : Int) = ((L - 1 - i / 8 : Nat) : Int) := by omega
  unfold Bloom.at
  rw [hj]
  simp [hL]

/-! ## The two loops -/

theorem NewGenerator.loop_apply (L sections : Nat) (fuel i : Nat)
    (bl : Fin (BloomBitLength L) → List Nat) (j : Fin (BloomBitLength L)) :
    NewGenerator.loop L sections fuel i bl j =
      if i ≤ j.val ∧ j.val < i + fuel then List.replicate (sections / 8) 0 else bl j := by
  induction fuel generalizing i bl with
  | zero =>
    have hn : ¬ (i ≤ j.val ∧ j.val < i + 0) := by omega
    simp only [NewGenerator.loop, if_neg hn]
  | succ fuel ih =>
    unfold NewGenerator.loop
    by_cases h : i < BloomBitLength L
    · rw [dif_pos h, ih]
      by_cases hji : j.val = i
      · have hj : j = ⟨i, h⟩ := Fin.ext hji
        have h1 : ¬ (i + 1 ≤ j.val ∧ j.val < i + 1 + fuel) := by omega
        have h2 : i ≤ j.val ∧ j.val < i + (fuel + 1) := by omega
        rw [if_neg h1, if_pos h2, hj, Function.update_same]
      · have hj : j ≠ ⟨i, h⟩ := fun e => hji (congrArg Fin.val e)
        rw [Function.update_noteq hj]
        by_cases h1 : i + 1 ≤ j.val ∧ j.val < i + 1 + fuel
        · have h2 : i ≤ j.val ∧ j.val < i + (fuel + 1) := by omega
          rw [if_pos h1, if_pos h2]
        · have h2 : ¬ (i ≤ j.val ∧ j.val < i + (fuel + 1)) := by omega
          rw [if_neg h1, if_neg h2]
    · have hj := j.isLt
      have h2 : ¬ (i ≤ j.val ∧ j.val < i + (fuel + 1)) := by omega
      rw [dif_neg h, if_neg h2]

theorem AddBloom.body_eq {L : Nat} (bloom : Bloom L) (byteIndex bitMask : Nat)
    (i : Nat) (h : i < BloomBitLength L) (bl : Fin (BloomBitLength L) → List Nat)
    (hlen : byteIndex < (bl ⟨i, h⟩).length) :
    AddBloom.body bloom byteIndex bitMask i h bl =
      some (Function.update bl ⟨i, h⟩
        (AddBloom.column bloom byteIndex bitMask i (bl ⟨i, h⟩))) := by
  obtain ⟨hL, hat⟩ := Bloom.at_eq bloom i h
  unfold AddBloom.body AddBloom.column
  simp only [hat]
  by_cases ht : bloom ⟨L - 1 - i / 8, hL⟩ &&& ((1 <<< ((i % 8) % 256)) % 256) ≠ 0
  · rw [if_pos ht, if_pos ht, dif_pos hlen, List.getElem?_eq_getElem hlen]
    rfl
  · rw [if_neg ht, if_neg ht, Function.update_eq_self]

theorem AddBloom.column_length {L : Nat} (bloom : Bloom L) (byteIndex bitMask : Nat)
    (i : Nat) (row : List Nat) :
    (AddBloom.column bloom byteIndex bitMask i row).length = row.length := by
  unfold AddBloom.column
  split
  · rfl
  · split
    · exact List.length_set _ _ _
    · rfl

theorem AddBloom.range_step {N : Nat} (F : Nat → List Nat → List Nat)
    (bl : Fin N → List Nat) (i fuel : Nat) (h : i < N) :
    (fun j : Fin N => if i + 1 ≤ j.val ∧ j.val < i + 1 + fuel then
        F j.val (Function.update bl ⟨i, h⟩ (F i (bl ⟨i, h⟩)) j)
      else Function.update bl ⟨i, h⟩ (F i (bl ⟨i, h⟩)) j) =
    fun j : Fin N => if i ≤ j.val ∧ j.val < i + (fuel + 1) then F j.val (bl j) else bl j := by
  funext j
  by_cases hji : j.val = i
  · have hj : j = ⟨i, h⟩ := Fin.ext hji
    have h1 : ¬ (i + 1 ≤ j.val ∧ j.val < i + 1 + fuel) := by omega
    have h2 : i ≤ j.val ∧ j.val < i + (fuel + 1) := by omega
    rw [if_neg h1, if_pos h2, hj, Function.update_same]
  · have hj : j ≠ ⟨i, h⟩ := fun e => hji (congrArg Fin.val e)
    rw [Function.update_noteq hj]
    by_cases h1 : i + 1 ≤ j.val ∧ j.val < i + 1 + fuel
    · have h2 : i ≤ j.val ∧ j.val < i + (fuel + 1) := by omega
      rw [if_pos h1, if_pos h2]
    · have h2 : ¬ (i ≤ j.val ∧ j.val < i + (fuel + 1)) := by omega
      rw [if_neg h1, if_neg h2]

theorem AddBloom.range_done {N : Nat} (F : Nat → List Nat → List Nat)
    (bl : Fin N → List Nat) (i fuel : Nat) (h : ¬ i < N ∨ fuel = 0) :
    bl = fun j : Fin N => if i ≤ j.val ∧ j.val < i + fuel then F j.val (bl j) else bl j := by
  funext j
  have hj := j.isLt
  have h2 : ¬ (i ≤ j.val ∧ j.val < i + fuel) := by omega
  rw [if_neg h2]

theorem AddBloom.loop_eq {L : Nat} (bloom : Bloom L) (byteIndex bitMask : Nat)
    (fuel i : Nat) (bl : Fin (BloomBitLength L) → List Nat)
    (hlen : ∀ j, byteIndex < (bl j).length) :
    AddBloom.loop bloom byteIndex bitMask fuel i bl =
      some (fun j => if i ≤ j.val ∧ j.val < i + fuel then
        AddBloom.column bloom byteIndex bitMask j.val (bl j) else bl j) := by
  induction fuel generalizing i bl with
  | zero =>
    unfold AddBloom.loop
    exact congrArg some (AddBloom.range_done _ bl i 0 (Or.inr rfl))
  | succ fuel ih =>
    unfold AddBloom.loop
    by_cases h : i < BloomBitLength L
    · rw [dif_pos h, AddBloom.body_eq bloom byteIndex bitMask i h bl (hlen _)]
      simp only []
      rw [ih]
      · exact congrArg some
          (AddBloom.range_step (AddBloom.column bloom byteIndex bitMask) bl i fuel h)
      · intro j
        by_cases hj : j = ⟨i, h⟩
        · rw [hj, Function.update_same, AddBloom.column_length]
          exact hlen _
        · rw [Function.update_noteq hj]
          exact hlen _
    · rw [dif_neg h]
      exact congrArg some (AddBloom.range_done _ bl i (fuel + 1) (Or.inl h))

theorem AddBloom.body_some {L : Nat} (bloom : Bloom L) (byteIndex bitMask : Nat)
    (i : Nat) (h : i < BloomBitLength L) (bl bl' : Fin (BloomBitLength L) → List Nat)
    (hb : AddBloom.body bloom byteIndex bitMask i h bl = some bl') :
    bl' = Function.update bl ⟨i, h⟩
        (AddBloom.column bloom byteIndex bitMask i (bl ⟨i, h⟩)) := by
  by_cases hlen : byteIndex < (bl ⟨i, h⟩).length
  · rw [AddBloom.body_eq bloom byteIndex bitMask i h bl hlen] at hb
    exact (Option.some.inj hb).symm
  · obtain ⟨hL, hat⟩ := Bloom.at_eq bloom i h
    unfold AddBloom.body at hb
    unfold AddBloom.column
    simp only [hat] at hb ⊢
    by_cases ht : bloom ⟨L - 1 - i / 8, hL⟩ &&& ((1 <<< ((i % 8) % 256)) % 256) ≠ 0
    · rw [if_pos ht, dif_neg hlen] at hb
      exact absurd hb (by simp)
    · rw [if_neg ht] at hb
      rw [if_neg ht, Function.update_eq_self]
      exact (Option.some.inj hb).symm

theorem AddBloom.loop_some {L : Nat} (bloom : Bloom L) (byteIndex bitMask : Nat)
    (fuel i : Nat) (bl bl' : Fin (BloomBitLength L) → List Nat)
    (hl : AddBloom.loop bloom byteIndex bitMask fuel i bl = some bl') :
    bl' = fun j => if i ≤ j.val ∧ j.val < i + fuel then
        AddBloom.column bloom byteIndex bitMask j.val (bl j) else bl j := by
  induction fuel generalizing i bl with
  | zero =>
    unfold AddBloom.loop at hl
    rw [← Option.some.inj hl]
    exact AddBloom.range_done _ bl i 0 (Or.inr rfl)
  | succ fuel ih =>
    unfold AddBloom.loop at hl
    by_cases h : i < BloomBitLength L
    · rw [dif_pos h] at hl
      cases hb : AddBloom.body bloom byteIndex bitMask i h bl with
      | none =>
        rw [hb] at hl
        exact absurd hl (by simp)
      | some bl1 =>
        rw [hb] at hl
        simp only [] at hl
        rw [ih (i + 1) bl1 hl, AddBloom.body_some bloom byteIndex bitMask i h bl bl1 hb]
        exact AddBloom.range_step (AddBloom.column bloom byteIndex bitMask) bl i fuel h
    · rw [dif_neg h] at hl
      rw [← Option.some.inj hl]
      exact AddBloom.range_done _ bl i (fuel + 1) (Or.inl h)

/-! ## The operations in closed form -/

theorem NewGenerator_ok (L s : Nat) (hs : s % 8 = 0) :
    NewGenerator L s =
      (some { blooms := fun _ => List.replicate (s / 8) 0, sections := s, nextBit := 0 },
        none) := by
  unfold NewGenerator
  rw [if_neg (by omega)]
  simp only []
  congr 3
  funext j
  rw [NewGenerator.loop_apply]
  have hj := j.isLt
  rw [if_pos (by omega)]

theorem AddBloom_some {L : Nat} (g g' : Generator L) (index : Nat) (bloom : Bloom L)
    (h : AddBloom g index bloom = some (g', none)) :
    g.nextBit < g.sections ∧ index = g.nextBit ∧
      g' = { blooms := fun j => AddBloom.column bloom (g.nextBit / 8)
                (2 ^ (7 - g.nextBit % 8)) j.val (g.blooms j),
             sections := g.sections,
             nextBit := (g.nextBit + 1) % uintMod } := by
  unfold AddBloom at h
  by_cases h1 : g.nextBit ≥ g.sections
  · rw [if_pos h1] at h
    simp at h
  · rw [if_neg h1] at h
    by_cases h2 : g.nextBit ≠ index
    · rw [if_pos h2] at h
      simp at h
    · rw [if_neg h2] at h
      simp only [bitMask_eq] at h
      refine ⟨by omega, (not_not.mp h2).symm, ?_⟩
      cases hl : AddBloom.loop bloom (g.nextBit / 8) (2 ^ (7 - g.nextBit % 8))
          (BloomBitLength L) 0 g.blooms with
      | none =>
        rw [hl] at h
        simp at h
      | some bl =>
        rw [hl] at h
        simp only [Option.some.injEq, Prod.mk.injEq, and_true] at h
        rw [← h, AddBloom.loop_some _ _ _ _ _ _ _ hl]
        congr 1
        funext j
        have hj := j.isLt
        rw [if_pos (by omega)]

theorem AddBloom_ok {L : Nat} (g : Generator L) (bloom : Bloom L)
    (hlt : g.nextBit < g.sections) (hu : g.sections < uintMod)
    (hlen : ∀ j, g.nextBit / 8 < (g.blooms j).length) :
    AddBloom g g.nextBit bloom =
      some ({ blooms := fun j => AddBloom.column bloom (g.nextBit / 8)
                (2 ^ (7 - g.nextBit % 8)) j.val (g.blooms j),
              sections := g.sections,
              nextBit := g.nextBit + 1 }, none) := by
  unfold AddBloom
  rw [if_neg (by omega), if_neg (by simp)]
  simp only [bitMask_eq]
  have hm : (g.nextBit + 1) % uintMod = g.nextBit + 1 := Nat.mod_eq_of_lt (by omega)
  rw [AddBloom.loop_eq _ _ _ _ _ _ hlen, hm]
  simp only []
  congr 3
  funext j
  have hj := j.isLt
  rw [if_pos (by omega)]

/-! ## One column write, bit by bit -/

theorem AddBloom.column_eq {L : Nat} (bloom : Bloom L) (byteIndex bitMask : Nat)
    (i : Nat) (hi : i < BloomBitLength L) (row : List Nat) :
    ∃ bb, bloom.at ((L : Int) - 1 - ((i / 8 : Nat) : Int)) = some bb ∧
      bloom.bit i = bb.testBit (i % 8) ∧
      AddBloom.column bloom byteIndex bitMask i row =
        if bb.testBit (i % 8) = true then
          row.set byteIndex (row[byteIndex]?.getD 0 ||| bitMask)
        else row := by
  obtain ⟨hL, hat⟩ := Bloom.at_eq bloom i hi
  refine ⟨_, hat, ?_, ?_⟩
  · unfold Bloom.bit
    rw [hat]
  · unfold AddBloom.column
    simp only [hat, bloomBitMask_eq]
    by_cases ht : (bloom ⟨L - 1 - i / 8, hL⟩).testBit (i % 8) = true
    · rw [if_pos ((and_two_pow_ne_zero_iff _ _).mpr ht), if_pos ht]
    · rw [if_neg (fun h => ht ((and_two_pow_ne_zero_iff _ _).mp h)), if_neg ht]

theorem AddBloom.column_get {L : Nat} (bloom : Bloom L) (byteIndex bitMask : Nat)
    (i : Nat) (hi : i < BloomBitLength L) (row : List Nat) (b : Nat) :
    (AddBloom.column bloom byteIndex bitMask i row)[b]? =
      if bloom.bit i = true ∧ byteIndex = b then
        row[b]?.map (fun x => x ||| bitMask)
      else row[b]? := by
  obtain ⟨bb, _, hbit, hcol⟩ := AddBloom.column_eq bloom byteIndex bitMask i hi row
  rw [hcol, hbit]
  by_cases ht : bb.testBit (i % 8) = true
  · rw [if_pos ht, List.getElem?_set']
    by_cases hb : byteIndex = b
    · subst hb
      rw [if_pos rfl, if_pos ⟨ht, rfl⟩]
      cases row[byteIndex]? <;> rfl
    · rw [if_neg hb, if_neg (fun h => hb h.2)]
  · rw [if_neg ht, if_neg (fun h => ht h.1)]

theorem column_index_iff (n k : Nat) : (n / 8 = k / 8 ∧ 7 - n % 8 = 7 - k % 8) ↔ n = k := by
  omega

theorem AddBloom.column_bit {L : Nat} (bloom : Bloom L) (n : Nat)
    (i : Nat) (hi : i < BloomBitLength L) (row : List Nat) (hlen : n / 8 < row.length)
    (k : Nat) :
    (((AddBloom.column bloom (n / 8) (2 ^ (7 - n % 8)) i row)[k / 8]?).getD 0).testBit
        (7 - k % 8) =
      (((row[k / 8]?).getD 0).testBit (7 - k % 8) || (decide (n = k) && bloom.bit i)) := by
  rw [AddBloom.column_get bloom _ _ i hi]
  by_cases hc : bloom.bit i = true ∧ n / 8 = k / 8
  · rw [if_pos hc]
    have hk : k / 8 < row.length := hc.2 ▸ hlen
    rw [List.getElem?_eq_getElem hk]
    simp only [Option.map_some', Option.getD_some, testBit_or_two_pow, hc.1, Bool.and_true]
    by_cases hnk : n = k
    · subst hnk
      simp
    · have h7 : ¬ (7 - n % 8 = 7 - k % 8) := fun h => hnk ((column_index_iff n k).mp ⟨hc.2, h⟩)
      simp [h7, hnk]
  · rw [if_neg hc]
    by_cases hnk : n = k
    · subst hnk
      have hb : bloom.bit i = false := by
        cases hbi : bloom.bit i
        · rfl
        · exact absurd ⟨hbi, rfl⟩ hc
      simp [hb]
    · simp [hnk]

/-! ## Well-formed generators -/

theorem NewGenerator_wellFormed (L S : Nat) (hu : S < uintMod) (g : Generator L)
    (h : NewGenerator L S = (some g, none)) : g.WellFormed S := by
  by_cases hs : S % 8 = 0
  · rw [NewGenerator_ok L S hs] at h
    have hg := Option.some.inj (congrArg Prod.fst h)
    subst hg
    exact ⟨rfl, hs, hu, Nat.zero_le _, fun _ => List.length_replicate _ _⟩
  · unfold NewGenerator at h
    rw [if_pos hs] at h
    simp at h

theorem AddBloom_error {L : Nat} (g g' : Generator L) (index : Nat) (bloom : Bloom L)
    (e : GenError) (h : AddBloom g index bloom = some (g', some e)) : g' = g := by
  unfold AddBloom at h
  by_cases h1 : g.nextBit ≥ g.sections
  · rw [if_pos h1] at h
    simp only [Option.some.injEq, Prod.mk.injEq] at h
    exact h.1.symm
  · rw [if_neg h1] at h
    by_cases h2 : g.nextBit ≠ index
    · rw [if_pos h2] at h
      simp only [Option.some.injEq, Prod.mk.injEq] at h
      exact h.1.symm
    · rw [if_neg h2] at h
      simp only [] at h
      split at h <;> simp at h

theorem Bitset_state {L : Nat} (g g' : Generator L) (idx : Nat)
    (r : Option (List Nat) × Option GenError) (h : Bitset g idx = some (g', r)) : g' = g := by
  unfold Bitset at h
  split at h
  · exact (congrArg Prod.fst (Option.some.inj h)).symm
  · split at h
    · exact (congrArg Prod.fst (Option.some.inj h)).symm
    · split at h
      · exact (congrArg Prod.fst (Option.some.inj h)).symm
      · simp at h

theorem AddBloom_wellFormed {L : Nat} (S : Nat) (g g' : Generator L) (index : Nat)
    (bloom : Bloom L) (e : Option GenError) (hw : g.WellFormed S)
    (h : AddBloom g index bloom = some (g', e)) : g'.WellFormed S := by
  cases e with
  | some e =>
    rw [AddBloom_error g g' index bloom e h]
    exact hw
  | none =>
    obtain ⟨hlt, _, hg⟩ := AddBloom_some g g' index bloom h
    obtain ⟨h1, h2, h3, h4, h5⟩ := hw
    have hm : (g.nextBit + 1) % uintMod = g.nextBit + 1 := Nat.mod_eq_of_lt (by omega)
    subst hg
    refine ⟨h1, h2, h3, ?_, fun j => ?_⟩
    · show (g.nextBit + 1) % uintMod ≤ S
      omega
    · show (AddBloom.column bloom _ _ j.val (g.blooms j)).length = S / 8
      rw [AddBloom.column_length]
      exact h5 j

theorem runCalls_wellFormed {L : Nat} (S : Nat) (cs : List (Call L)) (g g' : Generator L)
    (hw : g.WellFormed S) (h : runCalls g cs = some g') : g'.WellFormed S := by
  induction cs generalizing g with
  | nil =>
    unfold runCalls at h
    exact Option.some.inj h ▸ hw
  | cons c cs ih =>
    unfold runCalls at h
    cases hc : c.run g with
    | none =>
      rw [hc] at h
      simp at h
    | some g1 =>
      rw [hc] at h
      refine ih g1 ?_ h
      cases c with
      | addBloom index bloom =>
        simp only [Call.run] at hc
        cases ha : AddBloom g index bloom with
        | none =>
          rw [ha] at hc
          simp at hc
        | some r =>
          rw [ha] at hc
          have hr : r.1 = g1 := Option.some.inj hc
          exact hr ▸ AddBloom_wellFormed S g r.1 index bloom r.2 hw ha
      | bitset idx =>
        simp only [Call.run] at hc
        cases hb : Bitset g idx with
        | none =>
          rw [hb] at hc
          simp at hc
        | some r =>
          rw [hb] at hc
          have hr : r.1 = g1 := Option.some.inj hc
          rw [← hr, Bitset_state g r.1 idx r.2 hb]
          exact hw

theorem Reachable.wellFormed {L : Nat} (S : Nat) (g : Generator L) (h : Reachable S g) :
    g.WellFormed S := by
  obtain ⟨hu, g0, cs, h0, hr⟩ := h
  exact runCalls_wellFormed S cs g0 g (NewGenerator_wellFormed L S hu g0 h0) hr

/-! ## Feeding blooms in order -/

theorem AddBloom_bit {L : Nat} (S : Nat) (g : Generator L) (bloom : Bloom L)
    (hw : g.WellFormed S) (hlt : g.nextBit < g.sections) :
    ∃ g', AddBloom g g.nextBit bloom = some (g', none) ∧ g'.WellFormed S ∧
      g'.nextBit = g.nextBit + 1 ∧
      ∀ j k, g'.bit j k = (g.bit j k || (decide (g.nextBit = k) && bloom.bit j.val)) := by
  have hw0 := hw
  obtain ⟨h1, h2, h3, h4, h5⟩ := hw
  have hlen : ∀ j, g.nextBit / 8 < (g.blooms j).length := by
    intro j
    rw [h5 j]
    omega
  have hok := AddBloom_ok g bloom hlt (by omega) hlen
  refine ⟨_, hok, AddBloom_wellFormed S g _ _ bloom none hw0 hok, rfl, fun j k => ?_⟩
  exact AddBloom.column_bit bloom g.nextBit j.val j.isLt (g.blooms j) (hlen j) k

theorem feedFrom_cons {L : Nat} (g g1 : Generator L) (start : Nat) (bloom : Bloom L)
    (rest : List (Bloom L)) (h : AddBloom g start bloom = some (g1, none)) :
    feedFrom g start (bloom :: rest) = feedFrom g1 (start + 1) rest := by
  simp only [feedFrom, h]

theorem feedFrom_ok {L : Nat} (S : Nat) (bs : List (Bloom L)) (g : Generator L)
    (hw : g.WellFormed S) (hle : g.nextBit + bs.length ≤ S) :
    ∃ g', feedFrom g g.nextBit bs = some (g', none) ∧ g'.WellFormed S ∧
      g'.nextBit = g.nextBit + bs.length ∧
      (∀ j k, k < g.nextBit → g'.bit j k = g.bit j k) ∧
      (∀ j m bloom, bs[m]? = some bloom →
        g'.bit j (g.nextBit + m) = (g.bit j (g.nextBit + m) || bloom.bit j.val)) := by
  induction bs generalizing g with
  | nil =>
    refine ⟨g, rfl, hw, rfl, fun _ _ _ => rfl, fun j m bloom hm => ?_⟩
    simp at hm
  | cons b rest ih =>
    have hsec : g.sections = S := hw.1
    rw [List.length_cons] at hle
    obtain ⟨g1, hadd, hw1, hn1, hbit1⟩ := AddBloom_bit S g b hw (by omega)
    obtain ⟨g', hfeed, hw', hn', hlow, hcol⟩ := ih g1 hw1 (by omega)
    refine ⟨g', ?_, hw', ?_, fun j k hk => ?_, fun j m bloom hm => ?_⟩
    · rw [feedFrom_cons g g1 _ b rest hadd, ← hn1]
      exact hfeed
    · rw [hn', hn1, List.length_cons]
      omega
    · rw [hlow j k (by omega), hbit1 j k]
      have hne : ¬ g.nextBit = k := by omega
      simp [hne]
    · cases m with
      | zero =>
        have hb : b = bloom := by simpa using hm
        subst hb
        rw [Nat.add_zero, hlow j g.nextBit (by omega), hbit1 j g.nextBit]
        simp
      | succ m =>
        have hm' : rest[m]? = some bloom := by simpa using hm
        have hidx : g.nextBit + (m + 1) = g1.nextBit + m := by omega
        have hne : ¬ g.nextBit = g1.nextBit + m := by omega
        rw [hidx, hcol j m bloom hm', hbit1 j (g1.nextBit + m)]
        simp [hne]

theorem feedFrom_nextBit {L : Nat} (S : Nat) (bs : List (Bloom L)) (g g' : Generator L)
    (start : Nat) (hw : g.WellFormed S) (h : feedFrom g start bs = some (g', none)) :
    g'.WellFormed S ∧ g'.nextBit = g.nextBit + bs.length := by
  induction bs generalizing g start with
  | nil =>
    unfold feedFrom at h
    have hg : g = g' := congrArg Prod.fst (Option.some.inj h)
    exact hg ▸ ⟨hw, rfl⟩
  | cons b rest ih =>
    cases ha : AddBloom g start b with
    | none =>
      simp [feedFrom, ha] at h
    | some r =>
      obtain ⟨g1, e⟩ := r
      cases e with
      | some e =>
        simp [feedFrom, ha] at h
      | none =>
        rw [feedFrom_cons g g1 start b rest ha] at h
        obtain ⟨hlt, _, hg1⟩ := AddBloom_some g g1 start b ha
        have hw1 := AddBloom_wellFormed S g g1 start b none hw ha
        obtain ⟨hw', hn'⟩ := ih g1 (start + 1) hw1 h
        refine ⟨hw', ?_⟩
        have hsec : g.sections = S := hw.1
        have hu : S < uintMod := hw.2.2.1
        have hm : (g.nextBit + 1) % uintMod = g.nextBit + 1 := Nat.mod_eq_of_lt (by omega)
        have hn1 : g1.nextBit = g.nextBit + 1 := by
          rw [hg1]
          exact hm
        rw [hn', hn1, List.length_cons]
        omega

theorem NewGenerator_bit (L S : Nat) (g : Generator L)
    (h : NewGenerator L S = (some g, none)) (j : Fin (BloomBitLength L)) (k : Nat) :
    g.bit j k = false := by
  by_cases hs : S % 8 = 0
  · rw [NewGenerator_ok L S hs] at h
    have hg := Option.some.inj (congrArg Prod.fst h)
    subst hg
    unfold Generator.bit
    simp only [List.getElem?_replicate]
    split <;> simp
  · unfold NewGenerator at h
    rw [if_pos hs] at h
    simp at h

/-! ## Properties of the generator -/

/-- C1 (transpose correctness). For a section length `S` that is a multiple of 8 and
any `S` bloom filters fed in order to a fresh `NewGenerator(S)`, every `AddBloom`
call succeeds, and for every bit position `i` and block offset `k` the bit
`7 - k % 8` of byte `k / 8` of bitset `i` is set exactly when bit `i % 8` of byte
`BloomByteLength - 1 - i / 8` of the `k`-th bloom filter is set; whenever `Bitset(i)`
returns bytes, they are that bitset. -/
theorem transpose_correct (L S : Nat) (bs : List (Bloom L))
    (hS : S % 8 = 0) (hu : S < uintMod) (hlen : bs.length = S) :
    ∃ g0 g, NewGenerator L S = (some g0, none) ∧
      feedFrom g0 0 bs = some (g, none) ∧
      (∀ (i : Nat) (hi : i < BloomBitLength L) (k : Nat) (bloom : Bloom L),
        bs[k]? = some bloom →
        ∃ (byte : Nat) (hb : L - 1 - i / 8 < L),
          (g.blooms ⟨i, hi⟩)[k / 8]? = some byte ∧
          (byte.testBit (7 - k % 8) = true ↔
            (bloom ⟨L - 1 - i / 8, hb⟩).testBit (i % 8) = true)) ∧
      (∀ (i : Nat) (hi : i < BloomBitLength L) g1 out e,
        Bitset g i = some (g1, some out, e) → out = g.blooms ⟨i, hi⟩) := by
  have h0 := NewGenerator_ok L S hS
  have hw0 := NewGenerator_wellFormed L S hu _ h0
  obtain ⟨g, hfeed, hw, hn, _, hcol⟩ := feedFrom_ok S bs _ hw0 (by
    show 0 + bs.length ≤ S
    omega)
  refine ⟨_, g, h0, hfeed, fun i hi k bloom hk => ?_, fun i hi g1 out e hb => ?_⟩
  · have hkS : k < S := by
      obtain ⟨hk', _⟩ := List.getElem?_eq_some.mp hk
      omega
    have hrow : k / 8 < (g.blooms ⟨i, hi⟩).length := by
      rw [hw.2.2.2.2 ⟨i, hi⟩]
      have := hw.2.1
      omega
    obtain ⟨hL, hat⟩ := Bloom.at_eq bloom i hi
    refine ⟨(g.blooms ⟨i, hi⟩)[k / 8], hL, List.getElem?_eq_getElem hrow, ?_⟩
    have hbit := hcol ⟨i, hi⟩ k bloom hk
    rw [NewGenerator_bit L S _ h0] at hbit
    have hz : (0 : Nat) + k = k := Nat.zero_add k
    simp only [Bool.false_or] at hbit
    change g.bit ⟨i, hi⟩ (0 + k) = bloom.bit i at hbit
    rw [hz] at hbit
    unfold Generator.bit Bloom.bit at hbit
    rw [hat, List.getElem?_eq_getElem hrow] at hbit
    simp only [Option.getD_some] at hbit
    rw [hbit]
  · unfold Bitset at hb
    split at hb
    · simp at hb
    · split at hb
      · simp at hb
      · simp only [Option.some.injEq, Prod.mk.injEq] at hb
        exact hb.2.1.symm

/-- Witness of C1: one-byte bloom filters, a section of 8 blocks. -/
theorem transpose_correct_witness :
    (8 % 8 = 0 ∧ 8 < uintMod ∧ sampleBlooms.length = 8) ∧
    ∃ g0 g, NewGenerator 1 8 = (some g0, none) ∧
      feedFrom g0 0 sampleBlooms = some (g, none) ∧
      (∀ (i : Nat) (hi : i < BloomBitLength 1) (k : Nat) (bloom : Bloom 1),
        sampleBlooms[k]? = some bloom →
        ∃ (byte : Nat) (hb : 1 - 1 - i / 8 < 1),
          (g.blooms ⟨i, hi⟩)[k / 8]? = some byte ∧
          (byte.testBit (7 - k % 8) = true ↔
            (bloom ⟨1 - 1 - i / 8, hb⟩).testBit (i % 8) = true)) ∧
      (∀ (i : Nat) (hi : i < BloomBitLength 1) g1 out e,
        Bitset g i = some (g1, some out, e) → out = g.blooms ⟨i, hi⟩) :=
  ⟨⟨by decide, by decide, rfl⟩, transpose_correct 1 8 sampleBlooms (by decide) (by decide) rfl⟩

/-- C2 (construction validation). `NewGenerator(s)` returns an error and no generator
exactly when `s % 8 ≠ 0`, and a generator and no error exactly when `s % 8 = 0`;
it fails for 1, 7 and 9 and succeeds for 0, 8 and 16. -/
theorem NewGenerator_validation (L s : Nat) :
    (((NewGenerator L s).1 = none ∧ (NewGenerator L s).2 ≠ none) ↔ s % 8 ≠ 0) ∧
    ((∃ g, NewGenerator L s = (some g, none)) ↔ s % 8 = 0) ∧
    NewGenerator L 1 = (none, some GenError.errSectionCount) ∧
    NewGenerator L 7 = (none, some GenError.errSectionCount) ∧
    NewGenerator L 9 = (none, some GenError.errSectionCount) ∧
    (∃ g, NewGenerator L 0 = (some g, none)) ∧
    (∃ g, NewGenerator L 8 = (some g, none)) ∧
    (∃ g, NewGenerator L 16 = (some g, none)) := by
  have hbad : ∀ t, t % 8 ≠ 0 → NewGenerator L t = (none, some GenError.errSectionCount) := by
    intro t ht
    unfold NewGenerator
    rw [if_pos ht]
  refine ⟨?_, ?_, hbad 1 (by decide), hbad 7 (by decide), hbad 9 (by decide),
    ⟨_, NewGenerator_ok L 0 rfl⟩, ⟨_, NewGenerator_ok L 8 rfl⟩, ⟨_, NewGenerator_ok L 16 rfl⟩⟩
  · constructor
    · intro h hs
      rw [NewGenerator_ok L s hs] at h
      exact absurd h.1 (by simp)
    · intro hs
      rw [hbad s hs]
      exact ⟨rfl, by simp⟩
  · constructor
    · rintro ⟨g, hg⟩
      by_contra hs
      rw [hbad s hs] at hg
      simp at hg
    · intro hs
      exact ⟨_, NewGenerator_ok L s hs⟩

/-- C3 (fresh generator). For `s` a multiple of 8, `NewGenerator(s)` returns a generator
with `sections = s`, `nextBit = 0`, and every per-bit bitset `s / 8` bytes long with
all bytes zero. -/
theorem NewGenerator_fresh (L s : Nat) (hs : s % 8 = 0) :
    ∃ g, NewGenerator L s = (some g, none) ∧ g.sections = s ∧ g.nextBit = 0 ∧
      ∀ i : Fin (BloomBitLength L),
        (g.blooms i).length = s / 8 ∧ ∀ x ∈ g.blooms i, x = 0 :=
  ⟨_, NewGenerator_ok L s hs, rfl, rfl, fun _ =>
    ⟨List.length_replicate _ _, fun _ hx => List.eq_of_mem_replicate hx⟩⟩

/-- Witness of C3: a section of 16 blocks with two-byte bloom filters. -/
theorem NewGenerator_fresh_witness :
    16 % 8 = 0 ∧
    ∃ g, NewGenerator 2 16 = (some g, none) ∧ g.sections = 16 ∧ g.nextBit = 0 ∧
      ∀ i : Fin (BloomBitLength 2),
        (g.blooms i).length = 16 / 8 ∧ ∀ x ∈ g.blooms i, x = 0 :=
  ⟨by decide, NewGenerator_fresh 2 16 (by decide)⟩

/-- C4 (capacity enforcement). In every state with `nextBit ≥ sections`, and in
particular in the state left by `S` successful insertions into a fresh
`NewGenerator(S)`, `AddBloom(index, bloom)` returns `errSectionOutOfBounds` for every
index and bloom and leaves the generator as it was. -/
theorem AddBloom_full {L : Nat} (g : Generator L) (index : Nat) (bloom : Bloom L)
    (h : g.nextBit ≥ g.sections ∨
      ∃ S g0 bs, S < uintMod ∧ List.length bs = S ∧
        NewGenerator L S = (some g0, none) ∧ feedFrom g0 0 bs = some (g, none)) :
    AddBloom g index bloom = some (g, some GenError.errSectionOutOfBounds) := by
  have hfull : g.nextBit ≥ g.sections := by
    rcases h with h | ⟨S, g0, bs, hu, hlen, h0, hfeed⟩
    · exact h
    · have hw0 := NewGenerator_wellFormed L S hu g0 h0
      obtain ⟨hw, hn⟩ := feedFrom_nextBit S bs g0 g 0 hw0 hfeed
      have hsec : g.sections = S := hw.1
      have hz : g0.nextBit ≤ S := hw0.2.2.2.1
      omega
  unfold AddBloom
  rw [if_pos hfull]

/-- Witness of C4: the generator left by eight insertions into `NewGenerator(8)`
rejects a ninth insertion at index 8. -/
theorem AddBloom_full_witness :
    ∃ g : Generator 1,
      (g.nextBit ≥ g.sections ∨
        ∃ S g0 bs, S < uintMod ∧ List.length bs = S ∧
          NewGenerator 1 S = (some g0, none) ∧ feedFrom g0 0 bs = some (g, none)) ∧
      AddBloom g 8 (fun _ => 255) = some (g, some GenError.errSectionOutOfBounds) :=
  have hfeed : ∃ g, feedFrom sampleGenerator 0 sampleBlooms = some (g, none) := ⟨_, rfl⟩
  hfeed.elim fun g hg =>
    have hyp : g.nextBit ≥ g.sections ∨
        ∃ S g0 bs, S < uintMod ∧ List.length bs = S ∧
          NewGenerator 1 S = (some g0, none) ∧ feedFrom g0 0 bs = some (g, none) :=
      Or.inr ⟨8, sampleGenerator, sampleBlooms, by decide, rfl, NewGenerator_ok 1 8 rfl, hg⟩
    ⟨g, hyp, AddBloom_full g 8 (fun _ => 255) hyp⟩

/-- C5 (sequential-order enforcement). In every state with `nextBit < sections`,
`AddBloom(index, bloom)` with `index ≠ nextBit` returns the unexpected-index error,
which differs from `errSectionOutOfBounds`, leaves the generator as it was, and every
following `Bitset(idx)` returns no bytes and the not-fully-generated error. -/
theorem AddBloom_out_of_order {L : Nat} (g : Generator L) (index : Nat) (bloom : Bloom L)
    (hlt : g.nextBit < g.sections) (hne : index ≠ g.nextBit) :
    ∃ g', AddBloom g index bloom = some (g', some GenError.errUnexpectedIndex) ∧
      GenError.errUnexpectedIndex ≠ GenError.errSectionOutOfBounds ∧
      g' = g ∧
      ∀ idx, Bitset g' idx = some (g', none, some GenError.errNotGenerated) := by
  refine ⟨g, ?_, by decide, rfl, fun idx => ?_⟩
  · unfold AddBloom
    rw [if_neg (by omega), if_pos (fun e => hne e.symm)]
  · unfold Bitset
    rw [if_pos (by omega)]

/-- Witness of C5: skipping from offset 0 to offset 2 on a fresh generator. -/
theorem AddBloom_out_of_order_witness :
    (sampleGenerator.nextBit < sampleGenerator.sections ∧ 2 ≠ sampleGenerator.nextBit) ∧
    ∃ g', AddBloom sampleGenerator 2 (fun _ => 1) =
        some (g', some GenError.errUnexpectedIndex) ∧
      GenError.errUnexpectedIndex ≠ GenError.errSectionOutOfBounds ∧
      g' = sampleGenerator ∧
      ∀ idx, Bitset g' idx = some (g', none, some GenError.errNotGenerated) :=
  ⟨⟨by decide, by decide⟩,
    AddBloom_out_of_order sampleGenerator 2 (fun _ => 1) (by decide) (by decide)⟩

/-- C6 (effect of one successful insertion). In every state reachable from
`NewGenerator(S)` with `n = nextBit < sections`, `AddBloom(n, bloom)` succeeds, sets
`nextBit` to `n + 1`, and for every bit position `i` byte `n / 8` of bitset `i` becomes
its old value or-ed with `1 << (7 - n % 8)` when bit `i % 8` of bloom byte
`BloomByteLength - 1 - i / 8` is set, and keeps its old value otherwise. -/
theorem AddBloom_effect {L : Nat} (S : Nat) (g : Generator L) (bloom : Bloom L)
    (hr : Reachable S g) (hlt : g.nextBit < g.sections) :
    ∃ g', AddBloom g g.nextBit bloom = some (g', none) ∧
      g'.nextBit = g.nextBit + 1 ∧
      ∀ (i : Nat) (hi : i < BloomBitLength L),
        ∃ (old : Nat) (hb : L - 1 - i / 8 < L),
          (g.blooms ⟨i, hi⟩)[g.nextBit / 8]? = some old ∧
          (g'.blooms ⟨i, hi⟩)[g.nextBit / 8]? =
            some (if (bloom ⟨L - 1 - i / 8, hb⟩).testBit (i % 8) = true then
              old ||| (1 <<< (7 - g.nextBit % 8)) else old) := by
  obtain ⟨h1, h2, h3, h4, h5⟩ := Reachable.wellFormed S g hr
  have hlen : ∀ j, g.nextBit / 8 < (g.blooms j).length := by
    intro j
    rw [h5 j]
    omega
  refine ⟨_, AddBloom_ok g bloom hlt (by omega) hlen, rfl, fun i hi => ?_⟩
  obtain ⟨hL, hat⟩ := Bloom.at_eq bloom i hi
  have hbit : bloom.bit i = (bloom ⟨L - 1 - i / 8, hL⟩).testBit (i % 8) := by
    unfold Bloom.bit
    rw [hat]
  refine ⟨_, hL, List.getElem?_eq_getElem (hlen _), ?_⟩
  show (AddBloom.column bloom (g.nextBit / 8) (2 ^ (7 - g.nextBit % 8)) i
    (g.blooms ⟨i, hi⟩))[g.nextBit / 8]? = _
  rw [AddBloom.column_get bloom _ _ i hi, List.getElem?_eq_getElem (hlen _), hbit,
    Nat.one_shiftLeft]
  by_cases ht : (bloom ⟨L - 1 - i / 8, hL⟩).testBit (i % 8) = true
  · rw [if_pos ⟨ht, rfl⟩, if_pos ht]
    rfl
  · rw [if_neg (fun h => ht h.1), if_neg ht]

/-- Witness of C6: the first insertion into a fresh generator of 8 sections. -/
theorem AddBloom_effect_witness :
    (Reachable 8 sampleGenerator ∧ sampleGenerator.nextBit < sampleGenerator.sections) ∧
    ∃ g', AddBloom sampleGenerator sampleGenerator.nextBit (fun _ => 32) = some (g', none) ∧
      g'.nextBit = sampleGenerator.nextBit + 1 ∧
      ∀ (i : Nat) (hi : i < BloomBitLength 1),
        ∃ (old : Nat) (hb : 1 - 1 - i / 8 < 1),
          (sampleGenerator.blooms ⟨i, hi⟩)[sampleGenerator.nextBit / 8]? = some old ∧
          (g'.blooms ⟨i, hi⟩)[sampleGenerator.nextBit / 8]? =
            some (if ((fun _ => 32 : Bloom 1) ⟨1 - 1 - i / 8, hb⟩).testBit (i % 8) = true then
              old ||| (1 <<< (7 - sampleGenerator.nextBit % 8)) else old) :=
  have hreach : Reachable 8 sampleGenerator :=
    ⟨by decide, sampleGenerator, [], NewGenerator_ok 1 8 rfl, rfl⟩
  ⟨⟨hreach, by decide⟩, AddBloom_effect 8 sampleGenerator (fun _ => 32) hreach (by decide)⟩

/-- C7 (frame of one successful insertion). A successful `AddBloom(n, bloom)`, which
has `n = nextBit`, leaves `sections` and the length of every bitset unchanged, leaves
in every bitset every bit other than bit `7 - n % 8` of byte `n / 8` unchanged, so
the column of every earlier offset `k < n` keeps its value, and clears no set bit. -/
theorem AddBloom_frame {L : Nat} (g g' : Generator L) (index : Nat) (bloom : Bloom L)
    (h : AddBloom g index bloom = some (g', none)) :
    index = g.nextBit ∧ g'.sections = g.sections ∧
    (∀ i, (g'.blooms i).length = (g.blooms i).length) ∧
    (∀ i b t, ¬ (b = g.nextBit / 8 ∧ t = 7 - g.nextBit % 8) →
      ((g'.blooms i)[b]?).map (fun x => x.testBit t) =
        ((g.blooms i)[b]?).map (fun x => x.testBit t)) ∧
    (∀ i k, k < g.nextBit →
      ((g'.blooms i)[k / 8]?).map (fun x => x.testBit (7 - k % 8)) =
        ((g.blooms i)[k / 8]?).map (fun x => x.testBit (7 - k % 8))) ∧
    (∀ i (b t x : Nat), (g.blooms i)[b]? = some x → x.testBit t = true →
      ∃ y, (g'.blooms i)[b]? = some y ∧ y.testBit t = true) := by
  obtain ⟨_, hidx, hg⟩ := AddBloom_some g g' index bloom h
  have hrow : ∀ i b, (g'.blooms i)[b]? =
      if bloom.bit i.val = true ∧ g.nextBit / 8 = b then
        ((g.blooms i)[b]?).map (fun x => x ||| 2 ^ (7 - g.nextBit % 8))
      else (g.blooms i)[b]? := by
    intro i b
    rw [hg]
    exact AddBloom.column_get bloom _ _ i.val i.isLt (g.blooms i) b
  have hframe : ∀ i b t, ¬ (b = g.nextBit / 8 ∧ t = 7 - g.nextBit % 8) →
      ((g'.blooms i)[b]?).map (fun x => x.testBit t) =
        ((g.blooms i)[b]?).map (fun x => x.testBit t) := by
    intro i b t hbt
    rw [hrow i b]
    by_cases hc : bloom.bit i.val = true ∧ g.nextBit / 8 = b
    · rw [if_pos hc]
      have hts : ¬ (7 - g.nextBit % 8 = t) := fun e => hbt ⟨hc.2.symm, e.symm⟩
      cases (g.blooms i)[b]? with
      | none => rfl
      | some x =>
        simp only [Option.map_some', testBit_or_two_pow, hts, decide_False, Bool.or_false]
    · rw [if_neg hc]
  refine ⟨hidx, ?_, fun i => ?_, hframe, fun i k hk => ?_, fun i b t x hx ht => ?_⟩
  · rw [hg]
  · rw [hg]
    exact AddBloom.column_length bloom _ _ i.val (g.blooms i)
  · refine hframe i (k / 8) (7 - k % 8) (fun hc => ?_)
    have := (column_index_iff k g.nextBit).mp ⟨hc.1, hc.2⟩
    omega
  · rw [hrow i b, hx]
    by_cases hc : bloom.bit i.val = true ∧ g.nextBit / 8 = b
    · rw [if_pos hc]
      refine ⟨x ||| 2 ^ (7 - g.nextBit % 8), rfl, ?_⟩
      rw [Nat.testBit_or, ht]
      rfl
    · rw [if_neg hc]
      exact ⟨x, rfl, ht⟩

/-- Witness of C7: the first insertion into a fresh generator of 8 sections. -/
theorem AddBloom_frame_witness :
    ∃ g' : Generator 1,
      AddBloom sampleGenerator 0 (fun _ => 32) = some (g', none) ∧
      (0 = sampleGenerator.nextBit ∧ g'.sections = sampleGenerator.sections ∧
      (∀ i, (g'.blooms i).length = (sampleGenerator.blooms i).length) ∧
      (∀ i b t, ¬ (b = sampleGenerator.nextBit / 8 ∧ t = 7 - sampleGenerator.nextBit % 8) →
        ((g'.blooms i)[b]?).map (fun x => x.testBit t) =
          ((sampleGenerator.blooms i)[b]?).map (fun x => x.testBit t)) ∧
      (∀ i k, k < sampleGenerator.nextBit →
        ((g'.blooms i)[k / 8]?).map (fun x => x.testBit (7 - k % 8)) =
          ((sampleGenerator.blooms i)[k / 8]?).map (fun x => x.testBit (7 - k % 8))) ∧
      (∀ i (b t x : Nat), (sampleGenerator.blooms i)[b]? = some x → x.testBit t = true →
        ∃ y, (g'.blooms i)[b]? = some y ∧ y.testBit t = true)) :=
  have hadd : ∃ g', AddBloom sampleGenerator 0 (fun _ => 32) = some (g', none) := ⟨_, rfl⟩
  hadd.elim fun g' hg' => ⟨g', hg', AddBloom_frame sampleGenerator g' 0 (fun _ => 32) hg'⟩

/-- C8 (completeness gating, rejection). In every state with `nextBit ≠ sections`, and
in particular after fewer than `S` successful insertions into a fresh
`NewGenerator(S)`, `Bitset(idx)` returns no bytes and the not-fully-generated error
for every `idx`, and leaves the generator as it was. -/
theorem Bitset_incomplete {L : Nat} (g : Generator L) (idx : Nat)
    (h : g.nextBit ≠ g.sections ∨
      ∃ S g0 bs, S < uintMod ∧ List.length bs < S ∧
        NewGenerator L S = (some g0, none) ∧ feedFrom g0 0 bs = some (g, none)) :
    Bitset g idx = some (g, none, some GenError.errNotGenerated) := by
  have hinc : g.nextBit ≠ g.sections := by
    rcases h with h | ⟨S, g0, bs, hu, hlen, h0, hfeed⟩
    · exact h
    · have hw0 := NewGenerator_wellFormed L S hu g0 h0
      obtain ⟨hw, hn⟩ := feedFrom_nextBit S bs g0 g 0 hw0 hfeed
      have hsec : g.sections = S := hw.1
      have hz : g0.nextBit = 0 := by
        have hs : S % 8 = 0 := hw0.2.1
        rw [NewGenerator_ok L S hs] at h0
        rw [← Option.some.inj (congrArg Prod.fst h0)]
      omega
  unfold Bitset
  rw [if_pos hinc]

/-- Witness of C8: after three insertions into `NewGenerator(8)`, `Bitset(5)` is refused. -/
theorem Bitset_incomplete_witness :
    ∃ g : Generator 1,
      (g.nextBit ≠ g.sections ∨
        ∃ S g0 bs, S < uintMod ∧ List.length bs < S ∧
          NewGenerator 1 S = (some g0, none) ∧ feedFrom g0 0 bs = some (g, none)) ∧
      Bitset g 5 = some (g, none, some GenError.errNotGenerated) :=
  have hfeed : ∃ g, feedFrom sampleGenerator 0 (sampleBlooms.take 3) = some (g, none) :=
    ⟨_, rfl⟩
  hfeed.elim fun g hg =>
    have hyp : g.nextBit ≠ g.sections ∨
        ∃ S g0 bs, S < uintMod ∧ List.length bs < S ∧
          NewGenerator 1 S = (some g0, none) ∧ feedFrom g0 0 bs = some (g, none) :=
      Or.inr ⟨8, sampleGenerator, sampleBlooms.take 3, by decide, by decide,
        NewGenerator_ok 1 8 rfl, hg⟩
    ⟨g, hyp, Bitset_incomplete g 5 hyp⟩

/-! ## The retrieval guard of `Bitset`

`Bitset` compares the requested bit position with `sections`, while the array it
indexes has `BloomBitLength` entries. The two theorems below evaluate the code on
both sides of that mismatch. -/

theorem Bitset_complete {L : Nat} (S : Nat) (bs : List (Bloom L))
    (hS : S % 8 = 0) (hu : S < uintMod) (hlen : bs.length = S) :
    ∃ g0 g, NewGenerator L S = (some g0, none) ∧ feedFrom g0 0 bs = some (g, none) ∧
      g.nextBit = S ∧ g.sections = S := by
  have h0 := NewGenerator_ok L S hS
  have hw0 := NewGenerator_wellFormed L S hu _ h0
  obtain ⟨g, hfeed, hw, hn, _, _⟩ := feedFrom_ok S bs _ hw0 (by
    show 0 + bs.length ≤ S
    omega)
  refine ⟨_, g, h0, hfeed, ?_, hw.1⟩
  rw [hn, hlen]
  exact Nat.zero_add S

/-- C9 (completeness gating, acceptance), evaluated on the code: after `S` successful
insertions into a fresh `NewGenerator(S)`, `Bitset(i)` returns no bytes and
`errSectionOutOfBounds` for every bit position `i` with `S ≤ i < BloomBitLength`,
although `i` is a valid bit position. -/
theorem Bitset_rejects_valid_bit_position {L : Nat} (S : Nat) (bs : List (Bloom L))
    (i : Nat) (hS : S % 8 = 0) (hu : S < uintMod) (hlen : bs.length = S)
    (_hi : i < BloomBitLength L) (hSi : S ≤ i) :
    ∃ g0 g, NewGenerator L S = (some g0, none) ∧ feedFrom g0 0 bs = some (g, none) ∧
      Bitset g i = some (g, none, some GenError.errSectionOutOfBounds) := by
  obtain ⟨g0, g, h0, hfeed, hn, hsec⟩ := Bitset_complete S bs hS hu hlen
  refine ⟨g0, g, h0, hfeed, ?_⟩
  unfold Bitset
  rw [if_neg (by omega), if_pos (by omega)]

/-- Witness of C9: two-byte bloom filters (16 bit positions), a section of 8 blocks,
and bit position 8. -/
theorem Bitset_rejects_valid_bit_position_witness :
    (8 % 8 = 0 ∧ 8 < uintMod ∧
      (List.replicate 8 (fun _ => 0) : List (Bloom 2)).length = 8 ∧
      8 < BloomBitLength 2 ∧ 8 ≤ 8) ∧
    ∃ g0 g, NewGenerator 2 8 = (some g0, none) ∧
      feedFrom g0 0 (List.replicate 8 (fun _ => 0)) = some (g, none) ∧
      Bitset g 8 = some (g, none, some GenError.errSectionOutOfBounds) :=
  ⟨⟨by decide, by decide, rfl, by decide, by decide⟩,
    Bitset_rejects_valid_bit_position 8 (List.replicate 8 (fun _ => 0)) 8
      (by decide) (by decide) rfl (by decide) (by decide)⟩

/-- C10 (bounds on retrieval), evaluated on the code: after `S` successful insertions
into a fresh `NewGenerator(S)`, `Bitset(idx)` with `BloomBitLength ≤ idx < S` passes
both guards and indexes the bitset array out of range: the call panics instead of
returning `errSectionOutOfBounds`. -/
theorem Bitset_index_out_of_range {L : Nat} (S : Nat) (bs : List (Bloom L))
    (idx : Nat) (hS : S % 8 = 0) (hu : S < uintMod) (hlen : bs.length = S)
    (hidx : BloomBitLength L ≤ idx) (hlt : idx < S) :
    ∃ g0 g, NewGenerator L S = (some g0, none) ∧ feedFrom g0 0 bs = some (g, none) ∧
      Bitset g idx = none := by
  obtain ⟨g0, g, h0, hfeed, hn, hsec⟩ := Bitset_complete S bs hS hu hlen
  refine ⟨g0, g, h0, hfeed, ?_⟩
  unfold Bitset
  rw [if_neg (by omega), if_neg (by omega), dif_neg (by omega)]

/-- Witness of C10: one-byte bloom filters (8 bit positions), a section of 16 blocks,
and index 8. -/
theorem Bitset_index_out_of_range_witness :
    (16 % 8 = 0 ∧ 16 < uintMod ∧
      (List.replicate 16 (fun _ => 0) : List (Bloom 1)).length = 16 ∧
      BloomBitLength 1 ≤ 8 ∧ 8 < 16) ∧
    ∃ g0 g, NewGenerator 1 16 = (some g0, none) ∧
      feedFrom g0 0 (List.replicate 16 (fun _ => 0)) = some (g, none) ∧
      Bitset g 8 = none :=
  ⟨⟨by decide, by decide, rfl, by decide, by decide⟩,
    Bitset_index_out_of_range 16 (List.replicate 16 (fun _ => 0)) 8
      (by decide) (by decide) rfl (by decide) (by decide)⟩

/-! ## Invariants of call sequences -/

theorem AddBloom_some_row {L : Nat} (g g' : Generator L) (index : Nat) (bloom : Bloom L)
    (h : AddBloom g index bloom = some (g', none)) (j : Fin (BloomBitLength L)) (b : Nat) :
    (g'.blooms j)[b]? =
      if bloom.bit j.val = true ∧ g.nextBit / 8 = b then
        ((g.blooms j)[b]?).map (fun x => x ||| 2 ^ (7 - g.nextBit % 8))
      else (g.blooms j)[b]? := by
  obtain ⟨_, _, hg⟩ := AddBloom_some g g' index bloom h
  rw [hg]
  exact AddBloom.column_get bloom _ _ j.val j.isLt (g.blooms j) b

theorem Call.run_cases {L : Nat} (g g' : Generator L) (c : Call L)
    (h : c.run g = some g') :
    g' = g ∨ ∃ index bloom, AddBloom g index bloom = some (g', none) := by
  cases c with
  | addBloom index bloom =>
    simp only [Call.run] at h
    cases ha : AddBloom g index bloom with
    | none =>
      rw [ha] at h
      simp at h
    | some r =>
      rw [ha] at h
      obtain ⟨g1, e⟩ := r
      have hr : g1 = g' := Option.some.inj h
      subst hr
      cases e with
      | some e => exact Or.inl (AddBloom_error g g1 index bloom e ha)
      | none => exact Or.inr ⟨index, bloom, ha⟩
  | bitset idx =>
    simp only [Call.run] at h
    cases hb : Bitset g idx with
    | none =>
      rw [hb] at h
      simp at h
    | some r =>
      rw [hb] at h
      have hr : r.1 = g' := Option.some.inj h
      exact Or.inl (hr ▸ Bitset_state g r.1 idx r.2 hb)

theorem runCalls_induct {L : Nat} (P : Generator L → Prop)
    (hstep : ∀ g g' index bloom, P g → AddBloom g index bloom = some (g', none) → P g')
    (cs : List (Call L)) (g g' : Generator L) (h0 : P g)
    (h : runCalls g cs = some g') : P g' := by
  induction cs generalizing g with
  | nil =>
    unfold runCalls at h
    exact Option.some.inj h ▸ h0
  | cons c cs ih =>
    unfold runCalls at h
    cases hc : c.run g with
    | none =>
      rw [hc] at h
      simp at h
    | some g1 =>
      rw [hc] at h
      refine ih g1 ?_ h
      rcases Call.run_cases g g1 c hc with he | ⟨index, bloom, ha⟩
      · exact he ▸ h0
      · exact hstep g g1 index bloom h0 ha

theorem feedFrom_induct {L : Nat} (P : Generator L → Prop)
    (hstep : ∀ g g' index bloom, P g → AddBloom g index bloom = some (g', none) → P g')
    (bs : List (Bloom L)) (g g' : Generator L) (start : Nat) (h0 : P g)
    (h : feedFrom g start bs = some (g', none)) : P g' := by
  induction bs generalizing g start with
  | nil =>
    unfold feedFrom at h
    have hg : g = g' := congrArg Prod.fst (Option.some.inj h)
    exact hg ▸ h0
  | cons b rest ih =>
    cases ha : AddBloom g start b with
    | none =>
      simp [feedFrom, ha] at h
    | some r =>
      obtain ⟨g1, e⟩ := r
      cases e with
      | some e =>
        simp [feedFrom, ha] at h
      | none =>
        rw [feedFrom_cons g g1 start b rest ha] at h
        exact ih g1 (start + 1) (hstep g g1 start b h0 ha) h

theorem AddBloom_bytes {L : Nat} (g g' : Generator L) (index : Nat) (bloom : Bloom L)
    (hb : ∀ j (b x : Nat), (g.blooms j)[b]? = some x → x < 256)
    (h : AddBloom g index bloom = some (g', none)) :
    ∀ j (b x : Nat), (g'.blooms j)[b]? = some x → x < 256 := by
  intro j b x hx
  rw [AddBloom_some_row g g' index bloom h j b] at hx
  by_cases hc : bloom.bit j.val = true ∧ g.nextBit / 8 = b
  · rw [if_pos hc] at hx
    cases ho : (g.blooms j)[b]? with
    | none =>
      rw [ho] at hx
      simp at hx
    | some y =>
      rw [ho] at hx
      have hxy : y ||| 2 ^ (7 - g.nextBit % 8) = x := Option.some.inj hx
      rw [← hxy]
      exact Nat.or_lt_two_pow (n := 8) (hb j b y ho) (two_pow_lt_256 _ (by omega))
  · rw [if_neg hc] at hx
    exact hb j b x hx

theorem NewGenerator_bytes (L S : Nat) (g : Generator L)
    (h : NewGenerator L S = (some g, none)) :
    ∀ j (b x : Nat), (g.blooms j)[b]? = some x → x < 256 := by
  intro j b x hx
  by_cases hs : S % 8 = 0
  · rw [NewGenerator_ok L S hs] at h
    have hg := Option.some.inj (congrArg Prod.fst h)
    subst hg
    simp only [List.getElem?_replicate] at hx
    split at hx
    · rw [← Option.some.inj hx]
      decide
    · simp at hx
  · unfold NewGenerator at h
    rw [if_pos hs] at h
    simp at h

theorem sampleBlooms_bit5 :
    ∀ (k : Nat) (bloom : Bloom 1), sampleBlooms[k]? = some bloom →
      (bloom.bit 5 = true ↔ k = 3) := by
  intro k bloom hk
  unfold sampleBlooms at hk
  rcases k with _ | _ | _ | _ | _ | _ | _ | _ | k
  all_goals simp only [List.getElem?_cons_zero, List.getElem?_cons_succ,
    List.getElem?_nil, Option.some.injEq] at hk
  all_goals first
    | (subst hk; decide)
    | exact absurd hk (by simp)

theorem runCalls_indices {L : Nat} (S : Nat) (cs : List (Call L)) (g g' : Generator L)
    (hw : g.WellFormed S) (h : runCalls g cs = some g') :
    g'.nextBit = g.nextBit + (successfulIndices g cs).length ∧
      ∀ (t index : Nat), (successfulIndices g cs)[t]? = some index →
        index = g.nextBit + t := by
  induction cs generalizing g with
  | nil =>
    unfold runCalls at h
    rw [← Option.some.inj h]
    refine ⟨rfl, fun t index ht => ?_⟩
    simp [successfulIndices] at ht
  | cons c cs ih =>
    unfold runCalls at h
    cases hc : c.run g with
    | none =>
      rw [hc] at h
      simp at h
    | some g1 =>
      rw [hc] at h
      cases c with
      | addBloom index bloom =>
        simp only [Call.run] at hc
        cases ha : AddBloom g index bloom with
        | none =>
          rw [ha] at hc
          simp at hc
        | some r =>
          rw [ha] at hc
          obtain ⟨g2, e⟩ := r
          have hr : g2 = g1 := Option.some.inj hc
          subst hr
          have hw2 := AddBloom_wellFormed S g g2 index bloom e hw ha
          obtain ⟨hn, hidx⟩ := ih g2 hw2 h
          cases e with
          | some e =>
            have hg : g2 = g := AddBloom_error g g2 index bloom e ha
            simp only [successfulIndices, ha]
            rw [hg] at hn hidx ⊢
            exact ⟨hn, hidx⟩
          | none =>
            obtain ⟨hlt, hi, hg⟩ := AddBloom_some g g2 index bloom ha
            have hsec : g.sections = S := hw.1
            have hu : S < uintMod := hw.2.2.1
            have hm : (g.nextBit + 1) % uintMod = g.nextBit + 1 :=
              Nat.mod_eq_of_lt (by omega)
            have hn2 : g2.nextBit = g.nextBit + 1 := by
              rw [hg]
              exact hm
            simp only [successfulIndices, ha]
            refine ⟨?_, fun t idx ht => ?_⟩
            · rw [hn, hn2, List.length_cons]
              omega
            · cases t with
              | zero =>
                have he : index = idx := by simpa using ht
                omega
              | succ t =>
                have ht' : (successfulIndices g2 cs)[t]? = some idx := by simpa using ht
                have := hidx t idx ht'
                omega
      | bitset idx =>
        simp only [Call.run] at hc
        cases hb : Bitset g idx with
        | none =>
          rw [hb] at hc
          simp at hc
        | some r =>
          rw [hb] at hc
          obtain ⟨g2, out⟩ := r
          have hr : g2 = g1 := Option.some.inj hc
          subst hr
          have hg : g2 = g := Bitset_state g g2 idx out hb
          simp only [successfulIndices, hb]
          subst hg
          exact ih g2 hw h

theorem AddBloom_clear {L : Nat} (S : Nat) (g g' : Generator L) (index : Nat)
    (bloom : Bloom L)
    (hp : g.WellFormed S ∧ ∀ j k, g.nextBit ≤ k → g.bit j k = false)
    (h : AddBloom g index bloom = some (g', none)) :
    g'.WellFormed S ∧ ∀ j k, g'.nextBit ≤ k → g'.bit j k = false := by
  obtain ⟨hw, hclear⟩ := hp
  obtain ⟨hlt, hidx, _⟩ := AddBloom_some g g' index bloom h
  obtain ⟨g1, hadd, hw1, hn1, hbit⟩ := AddBloom_bit S g bloom hw hlt
  rw [hidx, hadd] at h
  have hg : g1 = g' := congrArg Prod.fst (Option.some.inj h)
  subst hg
  refine ⟨hw1, fun j k hk => ?_⟩
  have hne : ¬ g.nextBit = k := by omega
  rw [hbit j k, hclear j k (by omega)]
  simp [hne]

theorem AddBloom_complete {L : Nat} (g : Generator L) (hc : g.nextBit = g.sections)
    (index : Nat) (bloom : Bloom L) :
    AddBloom g index bloom = some (g, some GenError.errSectionOutOfBounds) := by
  unfold AddBloom
  rw [if_pos (by omega)]

/-! ## Further properties of the generator -/

/-- C11 (end-to-end example), as the code behaves: with `sections = 8`, after feeding
8 bloom filters in order of which filter 3 has bit 5 set and every other filter has
bit 5 clear, `Bitset(5)` succeeds and returns exactly one byte, whose only set bit is
bit `7 - 3 = 4`: the byte `0x10`. -/
theorem end_to_end (L : Nat) (bs : List (Bloom L)) (hlen : bs.length = 8)
    (h3 : ∀ (k : Nat) (bloom : Bloom L), bs[k]? = some bloom →
      (bloom.bit 5 = true ↔ k = 3)) :
    ∃ g0 g, NewGenerator L 8 = (some g0, none) ∧ feedFrom g0 0 bs = some (g, none) ∧
      Bitset g 5 = some (g, some [16], none) := by
  have h0 := NewGenerator_ok L 8 rfl
  have hw0 := NewGenerator_wellFormed L 8 (by decide) _ h0
  obtain ⟨g, hfeed, hw, hn, _, hcol⟩ := feedFrom_ok 8 bs _ hw0 (by
    show 0 + bs.length ≤ 8
    omega)
  have hget : ∀ k, (hk : k < bs.length) → bs[k]? = some bs[k] :=
    fun k hk => List.getElem?_eq_getElem hk
  have hL : 5 < BloomBitLength L := by
    have hbit3 := (h3 3 _ (hget 3 (by omega))).mpr rfl
    unfold BloomBitLength
    by_contra hc
    have hL0 : L = 0 := by omega
    subst hL0
    unfold Bloom.bit Bloom.at at hbit3
    simp at hbit3
  have hbytes := feedFrom_induct (fun g => ∀ j (b x : Nat), (g.blooms j)[b]? = some x → x < 256)
    (fun g g' index bloom hb h => AddBloom_bytes g g' index bloom hb h) bs _ g _
    (NewGenerator_bytes L 8 _ h0) hfeed
  have hrowlen : (g.blooms ⟨5, hL⟩).length = 1 := hw.2.2.2.2 _
  obtain ⟨x, hx⟩ := List.length_eq_one.mp hrowlen
  have hx16 : x = 16 := by
    apply Nat.eq_of_testBit_eq
    intro t
    have h16 : (16 : Nat).testBit t = decide (4 = t) := Nat.testBit_two_pow (n := 4)
    rw [h16]
    by_cases ht : t ≤ 7
    · have hk : 7 - t < bs.length := by omega
      have hbit := hcol ⟨5, hL⟩ (7 - t) _ (hget (7 - t) hk)
      rw [NewGenerator_bit L 8 _ h0] at hbit
      simp only [Bool.false_or] at hbit
      change g.bit ⟨5, hL⟩ (0 + (7 - t)) = (bs[7 - t]).bit 5 at hbit
      unfold Generator.bit at hbit
      have e1 : (0 + (7 - t)) / 8 = 0 := by omega
      have e2 : 7 - (0 + (7 - t)) % 8 = t := by omega
      rw [e1, e2, hx] at hbit
      simp only [List.getElem?_cons_zero, Option.getD_some] at hbit
      rw [hbit]
      have hiff := h3 (7 - t) _ (hget (7 - t) hk)
      by_cases h4 : 4 = t
      · rw [hiff.mpr (by omega)]
        simp [h4]
      · have hne : ¬ ((bs[7 - t]).bit 5 = true) := fun hb => h4 (by
          have := hiff.mp hb
          omega)
        simp [hne, h4]
    · have hlt : x < 256 := hbytes ⟨5, hL⟩ 0 x (by rw [hx]; rfl)
      have hpow : (256 : Nat) ≤ 2 ^ t :=
        calc (256 : Nat) = 2 ^ 8 := by decide
          _ ≤ 2 ^ t := Nat.pow_le_pow_right (by decide) (by omega)
      rw [Nat.testBit_lt_two_pow (lt_of_lt_of_le hlt hpow)]
      have h4 : ¬ (4 = t) := by omega
      simp [h4]
  refine ⟨_, g, h0, hfeed, ?_⟩
  have hsec : g.sections = 8 := hw.1
  have hnext : g.nextBit = 8 := by
    rw [hn, hlen]
  unfold Bitset
  rw [if_neg (by omega), if_neg (by omega), dif_pos hL, hx, hx16]

/-- Witness of C11: the eight one-byte bloom filters `sampleBlooms`. -/
theorem end_to_end_witness :
    (sampleBlooms.length = 8 ∧
      ∀ (k : Nat) (bloom : Bloom 1), sampleBlooms[k]? = some bloom →
        (bloom.bit 5 = true ↔ k = 3)) ∧
    ∃ g0 g, NewGenerator 1 8 = (some g0, none) ∧
      feedFrom g0 0 sampleBlooms = some (g, none) ∧
      Bitset g 5 = some (g, some [16], none) :=
  ⟨⟨rfl, sampleBlooms_bit5⟩, end_to_end 1 sampleBlooms rfl sampleBlooms_bit5⟩

/-- C11 as stated fails: for the eight filters `sampleBlooms`, of which only filter 3
has bit 5 set, `Bitset(5)` does not return the byte `0x08`. -/
theorem end_to_end_not_0x08 :
    (sampleBlooms.length = 8 ∧
      ∀ (k : Nat) (bloom : Bloom 1), sampleBlooms[k]? = some bloom →
        (bloom.bit 5 = true ↔ k = 3)) ∧
    ¬ ∃ g0 g, NewGenerator 1 8 = (some g0, none) ∧
      feedFrom g0 0 sampleBlooms = some (g, none) ∧
      Bitset g 5 = some (g, some [8], none) := by
  refine ⟨⟨rfl, sampleBlooms_bit5⟩, ?_⟩
  rintro ⟨g0, g, h0, hfeed, hb⟩
  have hnew : NewGenerator 1 8 = (some sampleGenerator, none) := NewGenerator_ok 1 8 rfl
  have hg0 : g0 = sampleGenerator := by
    rw [hnew] at h0
    exact (Option.some.inj (congrArg Prod.fst h0)).symm
  subst hg0
  have hrun : ∃ g1, feedFrom sampleGenerator 0 sampleBlooms = some (g1, none) ∧
      Bitset g1 5 = some (g1, some [16], none) := ⟨_, rfl, rfl⟩
  obtain ⟨g1, hfeed1, hb1⟩ := hrun
  rw [hfeed1] at hfeed
  have hg : g1 = g := congrArg Prod.fst (Option.some.inj hfeed)
  subst hg
  rw [hb1] at hb
  have h168 : ([16] : List Nat) = [8] :=
    Option.some.inj (congrArg (fun r => r.2.1) (Option.some.inj hb))
  exact absurd h168 (by decide)

/-- C12 (insertion counter invariant). In every state reached from a successful
`NewGenerator(S)` by any sequence of `AddBloom` and `Bitset` calls, `nextBit` is the
number of `AddBloom` calls that succeeded, `nextBit ≤ sections = S` (so at most `S`
insertions are accepted), and the `t`-th successful `AddBloom` call was made with
index `t`. -/
theorem insertion_counter {L : Nat} (S : Nat) (g0 g : Generator L) (cs : List (Call L))
    (hu : S < uintMod) (h0 : NewGenerator L S = (some g0, none))
    (hr : runCalls g0 cs = some g) :
    g.nextBit = (successfulIndices g0 cs).length ∧
    g.nextBit ≤ g.sections ∧ g.sections = S ∧
    (successfulIndices g0 cs).length ≤ S ∧
    ∀ (t index : Nat), (successfulIndices g0 cs)[t]? = some index → index = t := by
  have hw0 := NewGenerator_wellFormed L S hu g0 h0
  have hw := runCalls_wellFormed S cs g0 g hw0 hr
  obtain ⟨hn, hidx⟩ := runCalls_indices S cs g0 g hw0 hr
  have hz : g0.nextBit = 0 := by
    rw [NewGenerator_ok L S hw0.2.1] at h0
    rw [← Option.some.inj (congrArg Prod.fst h0)]
  rw [hz, Nat.zero_add] at hn
  have hle : g.nextBit ≤ S := hw.2.2.2.1
  refine ⟨hn, ?_, hw.1, ?_, fun t index ht => ?_⟩
  · rw [hw.1]
    exact hle
  · rw [← hn]
    exact hle
  · have := hidx t index ht
    omega

/-- Witness of C12: the call sequence `sampleCalls` on `NewGenerator(8)`. -/
theorem insertion_counter_witness :
    ∃ g : Generator 1,
      (8 < uintMod ∧ NewGenerator 1 8 = (some sampleGenerator, none) ∧
        runCalls sampleGenerator sampleCalls = some g) ∧
      g.nextBit = (successfulIndices sampleGenerator sampleCalls).length ∧
      g.nextBit ≤ g.sections ∧ g.sections = 8 ∧
      (successfulIndices sampleGenerator sampleCalls).length ≤ 8 ∧
      ∀ (t index : Nat),
        (successfulIndices sampleGenerator sampleCalls)[t]? = some index → index = t :=
  have hrun : ∃ g, runCalls sampleGenerator sampleCalls = some g := ⟨_, rfl⟩
  hrun.elim fun g hg =>
    ⟨g, ⟨by decide, NewGenerator_ok 1 8 rfl, hg⟩,
      insertion_counter 8 sampleGenerator g sampleCalls (by decide)
        (NewGenerator_ok 1 8 rfl) hg⟩

/-- C13 (retrieved length). In every state reachable from `NewGenerator(S)` every
per-bit bitset has exactly `S / 8` bytes; whenever `Bitset(idx)` succeeds (returns a
nil error) it returns a byte sequence of exactly `S / 8` bytes; and `Bitset` returns
bytes only together with a nil error. -/
theorem retrieved_length {L : Nat} (S : Nat) (g : Generator L) (hr : Reachable S g) :
    (∀ j, (g.blooms j).length = S / 8) ∧
    (∀ (idx : Nat) (g' : Generator L) (out : Option (List Nat)),
      Bitset g idx = some (g', out, none) →
        ∃ bytes, out = some bytes ∧ bytes.length = S / 8) ∧
    ∀ (idx : Nat) (g' : Generator L) (bytes : List Nat) (e : Option GenError),
      Bitset g idx = some (g', some bytes, e) → e = none ∧ bytes.length = S / 8 := by
  have hw := Reachable.wellFormed S g hr
  have hret : ∀ (idx : Nat) (g' : Generator L) (out : Option (List Nat))
      (e : Option GenError), Bitset g idx = some (g', out, e) →
      (out = none ∧ e ≠ none) ∨ (e = none ∧ ∃ bytes, out = some bytes ∧
        bytes.length = S / 8) := by
    intro idx g' out e hb
    unfold Bitset at hb
    split at hb
    · simp only [Option.some.injEq, Prod.mk.injEq] at hb
      exact Or.inl ⟨hb.2.1.symm, by rw [← hb.2.2]; simp⟩
    · split at hb
      · simp only [Option.some.injEq, Prod.mk.injEq] at hb
        exact Or.inl ⟨hb.2.1.symm, by rw [← hb.2.2]; simp⟩
      · split at hb
        · simp only [Option.some.injEq, Prod.mk.injEq] at hb
          exact Or.inr ⟨hb.2.2.symm, _, hb.2.1.symm, hw.2.2.2.2 _⟩
        · simp at hb
  refine ⟨hw.2.2.2.2, fun idx g' out hb => ?_, fun idx g' bytes e hb => ?_⟩
  · rcases hret idx g' out none hb with h | h
    · exact absurd rfl h.2
    · exact h.2
  · rcases hret idx g' (some bytes) e hb with h | h
    · exact absurd h.1 (by simp)
    · obtain ⟨he, b, hb1, hb2⟩ := h
      exact ⟨he, (Option.some.inj hb1) ▸ hb2⟩

/-- Witness of C13: on the generator completed by the eight insertions `sampleFeed`
into `NewGenerator(8)`, `Bitset(5)` succeeds and returns the one byte `0x10`. -/
theorem retrieved_length_witness :
    ∃ g : Generator 1, runCalls sampleGenerator sampleFeed = some g ∧
      Reachable 8 g ∧
      Bitset g 5 = some (g, some [16], none) ∧
      (∀ j, (g.blooms j).length = 8 / 8) ∧
      (∀ (idx : Nat) (g' : Generator 1) (out : Option (List Nat)),
        Bitset g idx = some (g', out, none) →
          ∃ bytes, out = some bytes ∧ bytes.length = 8 / 8) ∧
      ∀ (idx : Nat) (g' : Generator 1) (bytes : List Nat) (e : Option GenError),
        Bitset g idx = some (g', some bytes, e) → e = none ∧ bytes.length = 8 / 8 :=
  have hrun : ∃ g, runCalls sampleGenerator sampleFeed = some g ∧
      Bitset g 5 = some (g, some [16], none) := ⟨_, rfl, rfl⟩
  hrun.elim fun g hg =>
    have hreach : Reachable 8 g :=
      ⟨by decide, sampleGenerator, sampleFeed, NewGenerator_ok 1 8 rfl, hg.1⟩
    ⟨g, hg.1, hreach, hg.2, retrieved_length 8 g hreach⟩

/-- C14 (a completed generator is read-only). Once `nextBit = sections`, every call
that returns, `AddBloom` with any index and bloom or `Bitset` with any index, leaves
the generator as it was, hence so does every sequence of calls, and `Bitset(idx)`
gives the same result after any such sequence; and in any state every call of
`AddBloom` or `Bitset` that returns an error leaves the generator as it was. -/
theorem completed_read_only {L : Nat} (g : Generator L) :
    (g.nextBit = g.sections →
      (∀ index bloom g' e, AddBloom g index bloom = some (g', e) → g' = g) ∧
      (∀ idx g' r, Bitset g idx = some (g', r) → g' = g) ∧
      (∀ cs g', runCalls g cs = some g' → g' = g) ∧
      (∀ cs g' idx, runCalls g cs = some g' → Bitset g' idx = Bitset g idx)) ∧
    (∀ index bloom g' e, AddBloom g index bloom = some (g', some e) → g' = g) ∧
    (∀ idx g' out e, Bitset g idx = some (g', out, some e) → g' = g) := by
  refine ⟨fun hc => ?_, fun index bloom g' e h => AddBloom_error g g' index bloom e h,
    fun idx g' out e h => Bitset_state g g' idx _ h⟩
  have hadd : ∀ index bloom g' e, AddBloom g index bloom = some (g', e) → g' = g := by
    intro index bloom g' e h
    rw [AddBloom_complete g hc index bloom] at h
    exact (congrArg Prod.fst (Option.some.inj h)).symm
  have hrun : ∀ cs g', runCalls g cs = some g' → g' = g := by
    intro cs g' h
    refine runCalls_induct (fun x => x = g) ?_ cs g g' rfl h
    intro g1 g2 index bloom h1 ha
    subst h1
    exact hadd index bloom g2 none ha
  refine ⟨hadd, fun idx g' r h => Bitset_state g g' idx r h, hrun, fun cs g' idx h => ?_⟩
  rw [hrun cs g' h]

/-- Witness of C14: the generator completed by feeding `sampleBlooms` to
`NewGenerator(8)` keeps its state under every call. -/
theorem completed_read_only_witness :
    ∃ g : Generator 1, feedFrom sampleGenerator 0 sampleBlooms = some (g, none) ∧
      g.nextBit = g.sections ∧
      (∀ index bloom g' e, AddBloom g index bloom = some (g', e) → g' = g) ∧
      (∀ idx g' r, Bitset g idx = some (g', r) → g' = g) ∧
      (∀ cs g', runCalls g cs = some g' → g' = g) ∧
      (∀ cs g' idx, runCalls g cs = some g' → Bitset g' idx = Bitset g idx) :=
  have hfeed : ∃ g, feedFrom sampleGenerator 0 sampleBlooms = some (g, none) ∧
      g.nextBit = g.sections := ⟨_, rfl, rfl⟩
  hfeed.elim fun g hg => ⟨g, hg.1, hg.2, (completed_read_only g).1 hg.2⟩

/-- C15 (retrieval above capacity). On every complete generator (`nextBit = sections`),
`Bitset(idx)` with `idx ≥ sections` returns no bytes and `errSectionOutOfBounds`, the
same error value `AddBloom` returns on that generator because the section is full. -/
theorem Bitset_above_capacity {L : Nat} (g : Generator L) (idx : Nat)
    (hc : g.nextBit = g.sections) (hi : idx ≥ g.sections) :
    Bitset g idx = some (g, none, some GenError.errSectionOutOfBounds) ∧
    ∀ index bloom, AddBloom g index bloom = some (g, some GenError.errSectionOutOfBounds) := by
  refine ⟨?_, fun index bloom => AddBloom_complete g hc index bloom⟩
  unfold Bitset
  rw [if_neg (by omega), if_pos hi]

/-- Witness of C15: `Bitset(8)` on the generator completed by feeding `sampleBlooms`
to `NewGenerator(8)`. -/
theorem Bitset_above_capacity_witness :
    ∃ g : Generator 1, feedFrom sampleGenerator 0 sampleBlooms = some (g, none) ∧
      (g.nextBit = g.sections ∧ 8 ≥ g.sections) ∧
      Bitset g 8 = some (g, none, some GenError.errSectionOutOfBounds) ∧
      ∀ index bloom,
        AddBloom g index bloom = some (g, some GenError.errSectionOutOfBounds) :=
  have hfeed : ∃ g, feedFrom sampleGenerator 0 sampleBlooms = some (g, none) ∧
      g.nextBit = g.sections ∧ 8 ≥ g.sections := ⟨_, rfl, rfl, by decide⟩
  hfeed.elim fun g hg =>
    ⟨g, hg.1, hg.2, Bitset_above_capacity g 8 hg.2.1 hg.2.2⟩

/-- C16 (unwritten columns are clear). In every state reachable from a successful
`NewGenerator(S)`, for every bit position `i` and every offset `k` with
`nextBit ≤ k < S`, byte `k / 8` of bitset `i` exists and its bit `7 - k % 8` is zero. -/
theorem unwritten_columns_clear {L : Nat} (S : Nat) (g : Generator L)
    (hr : Reachable S g) (i : Nat) (hi : i < BloomBitLength L) (k : Nat)
    (hk : g.nextBit ≤ k) (hkS : k < S) :
    ∃ byte, (g.blooms ⟨i, hi⟩)[k / 8]? = some byte ∧
      byte.testBit (7 - k % 8) = false := by
  obtain ⟨hu, g0, cs, h0, hrun⟩ := hr
  have hw0 := NewGenerator_wellFormed L S hu g0 h0
  have hinv := runCalls_induct
    (fun x => x.WellFormed S ∧ ∀ j k, x.nextBit ≤ k → x.bit j k = false)
    (fun x x' index bloom hp h => AddBloom_clear S x x' index bloom hp h) cs g0 g
    ⟨hw0, fun j k _ => NewGenerator_bit L S g0 h0 j k⟩ hrun
  obtain ⟨hw, hclear⟩ := hinv
  have hrow : k / 8 < (g.blooms ⟨i, hi⟩).length := by
    rw [hw.2.2.2.2 ⟨i, hi⟩]
    have := hw.2.1
    omega
  refine ⟨_, List.getElem?_eq_getElem hrow, ?_⟩
  have hbit := hclear ⟨i, hi⟩ k hk
  unfold Generator.bit at hbit
  rw [List.getElem?_eq_getElem hrow] at hbit
  exact hbit

/-- Witness of C16: column 3 of bitset 0 in the state reached by `sampleCalls`, which
has made three insertions. -/
theorem unwritten_columns_clear_witness :
    ∃ g : Generator 1, runCalls sampleGenerator sampleCalls = some g ∧
      (Reachable 8 g ∧ 0 < BloomBitLength 1 ∧ g.nextBit ≤ 3 ∧ 3 < 8) ∧
      ∃ (hi : 0 < BloomBitLength 1) (byte : Nat),
        (g.blooms ⟨0, hi⟩)[3 / 8]? = some byte ∧ byte.testBit (7 - 3 % 8) = false :=
  have hrun : ∃ g, runCalls sampleGenerator sampleCalls = some g ∧ g.nextBit ≤ 3 :=
    ⟨_, rfl, by decide⟩
  hrun.elim fun g hg =>
    have hreach : Reachable 8 g :=
      ⟨by decide, sampleGenerator, sampleCalls, NewGenerator_ok 1 8 rfl, hg.1⟩
    ⟨g, hg.1, ⟨hreach, by decide, hg.2, by decide⟩,
      ⟨by decide, unwritten_columns_clear 8 g hreach 0 (by decide) 3 hg.2 (by decide)⟩⟩

/-- C17 (`AddBloom` never indexes out of range). In every state reachable from a
successful `NewGenerator(S)`, when `AddBloom` passes its two guards
(`nextBit < sections` and `index = nextBit`): the written byte index `nextBit / 8` is
below `S / 8`, the length of every bitset; the unsigned subtraction `7 - nextBit % 8`
does not wrap and lies in `[0, 7]`; the increment of `nextBit` does not wrap; for
every bit position `i` the bloom byte index `BloomByteLength - 1 - i / 8` lies in
`[0, BloomByteLength)`; and the call returns without a panic. -/
theorem AddBloom_in_range {L : Nat} (S : Nat) (g : Generator L) (index : Nat)
    (hr : Reachable S g) (hlt : g.nextBit < g.sections) (hidx : index = g.nextBit) :
    (g.nextBit / 8 < S / 8 ∧ ∀ j, (g.blooms j).length = S / 8) ∧
    (g.nextBit % 8 ≤ 7 ∧ (7 + uintMod - g.nextBit % 8) % uintMod = 7 - g.nextBit % 8 ∧
      7 - g.nextBit % 8 ≤ 7) ∧
    (g.nextBit + 1) % uintMod = g.nextBit + 1 ∧
    (∀ i, i < BloomBitLength L →
      0 ≤ (L : Int) - 1 - ((i / 8 : Nat) : Int) ∧
      (L : Int) - 1 - ((i / 8 : Nat) : Int) < (L : Int)) ∧
    (∀ (bloom : Bloom L) (i : Nat), i < BloomBitLength L →
      bloom.at ((L : Int) - 1 - ((i / 8 : Nat) : Int)) ≠ none) ∧
    ∀ bloom : Bloom L, ∃ g', AddBloom g index bloom = some (g', none) := by
  obtain ⟨h1, h2, h3, h4, h5⟩ := Reachable.wellFormed S g hr
  have hlen : ∀ j, g.nextBit / 8 < (g.blooms j).length := by
    intro j
    rw [h5 j]
    omega
  have hmod : g.nextBit % 8 < 8 := Nat.mod_lt _ (by decide)
  refine ⟨⟨by omega, h5⟩, ⟨by omega, ?_, by omega⟩, Nat.mod_eq_of_lt (by omega),
    fun i hi => ?_, fun bloom i hi => ?_, fun bloom => ?_⟩
  · unfold uintMod
    omega
  · unfold BloomBitLength at hi
    omega
  · obtain ⟨_, hat⟩ := Bloom.at_eq bloom i hi
    rw [hat]
    simp
  · rw [hidx]
    exact ⟨_, AddBloom_ok g bloom hlt (by omega) hlen⟩

/-- Witness of C17: the fourth insertion in the state reached by `sampleCalls`. -/
theorem AddBloom_in_range_witness :
    ∃ g : Generator 1, runCalls sampleGenerator sampleCalls = some g ∧
      (Reachable 8 g ∧ g.nextBit < g.sections ∧ 3 = g.nextBit) ∧
      (g.nextBit / 8 < 8 / 8 ∧ ∀ j, (g.blooms j).length = 8 / 8) ∧
      (g.nextBit % 8 ≤ 7 ∧ (7 + uintMod - g.nextBit % 8) % uintMod = 7 - g.nextBit % 8 ∧
        7 - g.nextBit % 8 ≤ 7) ∧
      (g.nextBit + 1) % uintMod = g.nextBit + 1 ∧
      (∀ i, i < BloomBitLength 1 →
        0 ≤ ((1 : Nat) : Int) - 1 - ((i / 8 : Nat) : Int) ∧
        ((1 : Nat) : Int) - 1 - ((i / 8 : Nat) : Int) < ((1 : Nat) : Int)) ∧
      (∀ (bloom : Bloom 1) (i : Nat), i < BloomBitLength 1 →
        bloom.at (((1 : Nat) : Int) - 1 - ((i / 8 : Nat) : Int)) ≠ none) ∧
      ∀ bloom : Bloom 1, ∃ g', AddBloom g 3 bloom = some (g', none) :=
  have hrun : ∃ g, runCalls sampleGenerator sampleCalls = some g ∧
      g.nextBit < g.sections ∧ 3 = g.nextBit := ⟨_, rfl, by decide, rfl⟩
  hrun.elim fun g hg =>
    have hreach : Reachable 8 g :=
      ⟨by decide, sampleGenerator, sampleCalls, NewGenerator_ok 1 8 rfl, hg.1⟩
    ⟨g, hg.1, ⟨hreach, hg.2.1, hg.2.2⟩, AddBloom_in_range 8 g 3 hreach hg.2.1 hg.2.2⟩

/-- C18 (zero-length section). `NewGenerator(0)` succeeds, and on the generator it
returns, and on every generator reachable from it, every `AddBloom(index, bloom)`
returns `errSectionOutOfBounds` and every `Bitset(idx)` returns no bytes and
`errSectionOutOfBounds`, which is not the not-fully-generated error; so no call of
`Bitset` ever returns a bitset. -/
theorem zero_length_section (L : Nat) :
    ∃ g0, NewGenerator L 0 = (some g0, none) ∧
      GenError.errSectionOutOfBounds ≠ GenError.errNotGenerated ∧
      ∀ g : Generator L, (g = g0 ∨ Reachable 0 g) →
        (∀ index bloom,
          AddBloom g index bloom = some (g, some GenError.errSectionOutOfBounds)) ∧
        (∀ idx, Bitset g idx = some (g, none, some GenError.errSectionOutOfBounds)) ∧
        (∀ idx g' out e, Bitset g idx = some (g', some out, e) → False) := by
  have h0 := NewGenerator_ok L 0 rfl
  refine ⟨_, h0, by decide, fun g hg => ?_⟩
  have hreach : Reachable 0 g := by
    rcases hg with hg | hg
    · exact ⟨by decide, _, [], h0, by rw [hg]; rfl⟩
    · exact hg
  obtain ⟨h1, _, _, h4, _⟩ := Reachable.wellFormed 0 g hreach
  have hc : g.nextBit = g.sections := by omega
  have hbit : ∀ idx, Bitset g idx = some (g, none, some GenError.errSectionOutOfBounds) := by
    intro idx
    unfold Bitset
    rw [if_neg (by omega), if_pos (by omega)]
  refine ⟨fun index bloom => AddBloom_complete g hc index bloom, hbit,
    fun idx g' out e h => ?_⟩
  rw [hbit idx] at h
  simp at h

/-- Witness of C18: with one-byte bloom filters, `Bitset(5)` and `AddBloom(0, _)` on the
generator returned by `NewGenerator(0)`. -/
theorem zero_length_section_witness :
    ∃ g0 : Generator 1, NewGenerator 1 0 = (some g0, none) ∧
      AddBloom g0 0 (fun _ => 32) = some (g0, some GenError.errSectionOutOfBounds) ∧
      Bitset g0 5 = some (g0, none, some GenError.errSectionOutOfBounds) :=
  (zero_length_section 1).elim fun g0 h =>
    ⟨g0, h.1, (h.2.2 g0 (Or.inl rfl)).1 0 (fun _ => 32), (h.2.2 g0 (Or.inl rfl)).2.1 5⟩

end bloombits
